import Mathlib

/-!
Verification of the ChemBot core against its specification.

This file gives a shallow embedding, in Lean 4, of the parts of the
ChemBot backend that the specification's claims are about:

* `src/backend/cache/redis_cache.py` — cache-key generation (SHA-256 of a
  normalized question / content-id / parameter string), answer caching,
  and namespace invalidation via a Redis SCAN glob pattern;
* `src/backend/rag/chunking.py` — the heuristic, semantic and intelligent
  chunking strategies;
* `src/backend/utils/rate_limiter.py` — the retry/backoff executor;
* `src/backend/chatbot/query_classifier.py` — `should_store_question`;
* `src/backend/chatbot/chatbot_engine.py` and
  `src/backend/rag/query_engine.py` — the streaming ask path;
* `src/backend/chatbot/conversation_manager.py` — the conversation window.

Python strings are modelled as Lean `String`s (operated on through their
`List Char` data so that everything reduces in the kernel); Python floats
are modelled as rationals; Python dicts carrying chunk metadata are
modelled as association lists observed only through lookup.  Wall-clock
values (timestamps, measured response times) are carried as opaque
parameters.  All definitions are executable.
-/

set_option maxRecDepth 100000

namespace ChemBot

/-! ## Python string primitives

Faithful models of the Python `str` operations used by the code:
`str.split()` (whitespace words), `str.split(sep)`, `str.strip()`,
`str.lower()`, and the two `re.split` patterns appearing in
`chunking.py`.  Everything is structural or fuelled recursion so that
concrete inputs evaluate inside the kernel. -/

/-- Python `str` whitespace (the ASCII part, which is all the code relies on):
space, tab, newline, carriage return, vertical tab, form feed. -/
def pyIsSpace (c : Char) : Bool :=
  c = ' ' || c = '\t' || c = '\n' || c = '\r' || c = '\x0b' || c = '\x0c'

/-- Accumulator pass behind `pySplitWs`: splits on whitespace runs,
dropping empty parts, exactly like Python `str.split()` with no
arguments. `cur` is the current word reversed. -/
def splitWsAux : List Char → List Char → List (List Char)
  | [], cur => if cur.isEmpty then [] else [cur.reverse]
  | c :: rest, cur =>
    if pyIsSpace c then
      if cur.isEmpty then splitWsAux rest [] else cur.reverse :: splitWsAux rest []
    else splitWsAux rest (c :: cur)

/-- Python `s.split()`: whitespace-separated words, no empties. -/
def pySplitWs (l : List Char) : List (List Char) := splitWsAux l []

/-- Python `len(s.split())` — the word count used throughout `chunking.py`. -/
def wordCount (s : String) : Nat := (pySplitWs s.data).length

/-- Python `s.strip()` on char lists. -/
def pyStripL (l : List Char) : List Char :=
  ((l.dropWhile pyIsSpace).reverse.dropWhile pyIsSpace).reverse

/-- Python `s.strip()`. -/
def pyStrip (s : String) : String := String.mk (pyStripL s.data)

/-- Python `s.lower()` (ASCII case folding, which is all the inputs use). -/
def pyLower (s : String) : String := String.mk (s.data.map Char.toLower)

/-- Fuelled worker for `pySplitOn`.  Splits at every non-overlapping,
leftmost occurrence of `sep`, keeping empty parts — Python
`str.split(sep)` for a non-empty separator. -/
def splitOnSepAux (sep : List Char) : Nat → List Char → List Char → List (List Char)
  | _, [], cur => [cur.reverse]
  | 0, l, cur => [cur.reverse ++ l]
  | fuel + 1, c :: rest, cur =>
    if sep.isPrefixOf (c :: rest) then
      cur.reverse :: splitOnSepAux sep fuel ((c :: rest).drop sep.length) []
    else
      splitOnSepAux sep fuel rest (c :: cur)

/-- Python `s.split(sep)` for a non-empty separator. -/
def pySplitOn (s sep : String) : List String :=
  (splitOnSepAux sep.data s.data.length s.data []).map String.mk

/-- Separator-joined concatenation: Python `sep.join(parts)` at list level. -/
def joinSepL (sep : List Char) : List (List Char) → List Char
  | [] => []
  | [x] => x
  | x :: y :: rest => x ++ sep ++ joinSepL sep (y :: rest)

/-- Python `sep.join(parts)`. -/
def joinSep (sep : String) (parts : List String) : String :=
  String.mk (joinSepL sep.data (parts.map String.data))

/-- Index (from the front) of the last `'\n'` in a list, if any. -/
def lastNewlineIdx (l : List Char) : Option Nat :=
  match l.reverse.findIdx? (· = '\n') with
  | some k => some (l.length - 1 - k)
  | none => none

/-- One step of the `re.split(r'\n\s*\n', text)` scanner: given the
characters after a `'\n'`, greedily match `\s*\n` (the final `\n` is the
last newline inside the maximal whitespace run) and return the remainder,
or `none` if the run holds no newline. -/
def matchParaSep (rest : List Char) : Option (List Char) :=
  let run := rest.takeWhile pyIsSpace
  match lastNewlineIdx run with
  | some j => some (rest.drop (j + 1))
  | none => none

/-- Fuelled scanner for `re.split(r'\n\s*\n', text)` (blank-line paragraph
separator, as in `HeuristicChunker._split_into_paragraphs`). -/
def splitParaAux : Nat → List Char → List Char → List (List Char)
  | _, [], cur => [cur.reverse]
  | 0, l, cur => [cur.reverse ++ l]
  | fuel + 1, c :: rest, cur =>
    if c = '\n' then
      match matchParaSep rest with
      | some rest' => cur.reverse :: splitParaAux fuel rest' []
      | none => splitParaAux fuel rest (c :: cur)
    else
      splitParaAux fuel rest (c :: cur)

/-- `HeuristicChunker._split_into_paragraphs`: split on blank lines,
strip each part, keep the non-empty ones. -/
def splitParagraphs (text : String) : List String :=
  (((splitParaAux text.data.length text.data []).map pyStripL).filter
      (fun p => ¬ p.isEmpty)).map String.mk

/-- Fuelled scanner for `re.split(r'(?<=[.!?])\s+', text)` (sentence
boundaries, as in `HeuristicChunker._chunk_by_sentences`).
`prevSentinel` records whether the previous character was `.`, `!` or `?`. -/
def splitSentAux : Nat → Bool → List Char → List Char → List (List Char)
  | _, _, [], cur => [cur.reverse]
  | 0, _, l, cur => [cur.reverse ++ l]
  | fuel + 1, prevSentinel, c :: rest, cur =>
    if prevSentinel && pyIsSpace c then
      let run := rest.takeWhile pyIsSpace
      cur.reverse :: splitSentAux fuel false (rest.drop run.length) []
    else
      splitSentAux fuel (c = '.' || c = '!' || c = '?') rest (c :: cur)

/-- `re.split(r'(?<=[.!?])\s+', text)`. -/
def splitSentences (text : String) : List String :=
  (splitSentAux text.data.length false text.data []).map String.mk

/-- Substring test at list level (used for Python's `in` on strings). -/
def containsSubL : List Char → List Char → Bool
  | [], needle => needle.isEmpty
  | c :: rest, needle => needle.isPrefixOf (c :: rest) || containsSubL rest needle

/-! ## SHA-256

`RedisCacheManager._generate_cache_key` hashes the cache string with
`hashlib.sha256(...).hexdigest()`.  The hash is embedded bit-for-bit
(FIPS 180-4), over the UTF-8 encoding of the string, producing the
lowercase hex digest; it is validated below against the standard test
vectors. -/

/-- Truncation to 32 bits. -/
def M32 (x : Nat) : Nat := x % 4294967296

/-- 32-bit right rotation. -/
def rotr32 (n x : Nat) : Nat := M32 ((x >>> n) ||| (x <<< (32 - n)))

/-- The SHA-256 round constants (FIPS 180-4 §4.2.2, in decimal). -/
def shaK : List Nat :=
  [1116352408, 1899447441, 3049323471, 3921009573, 961987163, 1508970993,
   2453635748, 2870763221, 3624381080, 310598401, 607225278, 1426881987,
   1925078388, 2162078206, 2614888103, 3248222580, 3835390401, 4022224774,
   264347078, 604807628, 770255983, 1249150122, 1555081692, 1996064986,
   2554220882, 2821834349, 2952996808, 3210313671, 3336571891, 3584528711,
   113926993, 338241895, 666307205, 773529912, 1294757372, 1396182291,
   1695183700, 1986661051, 2177026350, 2456956037, 2730485921, 2820302411,
   3259730800, 3345764771, 3516065817, 3600352804, 4094571909, 275423344,
   430227734, 506948616, 659060556, 883997877, 958139571, 1322822218,
   1537002063, 1747873779, 1955562222, 2024104815, 2227730452, 2361852424,
   2428436474, 2756734187, 3204031479, 3329325298]

/-- The eight 32-bit words of a SHA-256 state. -/
structure Hash8 where
  a : Nat
  b : Nat
  c : Nat
  d : Nat
  e : Nat
  f : Nat
  g : Nat
  h : Nat

/-- The SHA-256 initial state (FIPS 180-4 §5.3.3, in decimal). -/
def shaH0 : Hash8 :=
  ⟨1779033703, 3144134277, 1013904242, 2773480762,
   1359893119, 2600822924, 528734635, 1541459225⟩

/-- SHA-256 message-schedule sigma-0. -/
def ssig0 (x : Nat) : Nat := (rotr32 7 x) ^^^ (rotr32 18 x) ^^^ (x >>> 3)

/-- SHA-256 message-schedule sigma-1. -/
def ssig1 (x : Nat) : Nat := (rotr32 17 x) ^^^ (rotr32 19 x) ^^^ (x >>> 10)

/-- SHA-256 compression Sigma-0. -/
def bsig0 (x : Nat) : Nat := (rotr32 2 x) ^^^ (rotr32 13 x) ^^^ (rotr32 22 x)

/-- SHA-256 compression Sigma-1. -/
def bsig1 (x : Nat) : Nat := (rotr32 6 x) ^^^ (rotr32 11 x) ^^^ (rotr32 25 x)

/-- SHA-256 choose function. -/
def chF (x y z : Nat) : Nat := (x &&& y) ^^^ ((x ^^^ 0xffffffff) &&& z)

/-- SHA-256 majority function. -/
def majF (x y z : Nat) : Nat := (x &&& y) ^^^ (x &&& z) ^^^ (y &&& z)

/-- Extends the 16-word schedule to 64 words; the list is kept reversed
(most recent word first). -/
def extendSchedule : Nat → List Nat → List Nat
  | 0, rw => rw
  | n + 1, rw =>
    extendSchedule n
      (M32 (ssig1 (rw.getD 1 0) + rw.getD 6 0 + ssig0 (rw.getD 14 0) + rw.getD 15 0) :: rw)

/-- Big-endian assembly of 32-bit words from bytes. -/
def bytesToWords : List Nat → List Nat
  | b0 :: b1 :: b2 :: b3 :: rest =>
    (((b0 <<< 24) ||| (b1 <<< 16) ||| (b2 <<< 8) ||| b3) :: bytesToWords rest)
  | _ => []

/-- One SHA-256 round, consuming one `(k, w)` pair. -/
def shaRound (st : Hash8) (kw : Nat × Nat) : Hash8 :=
  let t1 := M32 (st.h + bsig1 st.e + chF st.e st.f st.g + kw.1 + kw.2)
  let t2 := M32 (bsig0 st.a + majF st.a st.b st.c)
  ⟨M32 (t1 + t2), st.a, st.b, st.c, M32 (st.d + t1), st.e, st.f, st.g⟩

/-- SHA-256 compression of one 64-byte block. -/
def compressBlock (st : Hash8) (block : List Nat) : Hash8 :=
  let w16 := bytesToWords block
  let w := (extendSchedule 48 w16.reverse).reverse
  let r := (shaK.zip w).foldl shaRound st
  ⟨M32 (st.a + r.a), M32 (st.b + r.b), M32 (st.c + r.c), M32 (st.d + r.d),
   M32 (st.e + r.e), M32 (st.f + r.f), M32 (st.g + r.g), M32 (st.h + r.h)⟩

/-- Splits a byte list into 64-byte blocks (fuelled). -/
def toBlocks : Nat → List Nat → List (List Nat)
  | 0, _ => []
  | _, [] => []
  | fuel + 1, l => l.take 64 :: toBlocks fuel (l.drop 64)

/-- SHA-256 padding: `0x80`, zeros, and the 64-bit big-endian bit length. -/
def padMessage (msg : List Nat) : List Nat :=
  let len := msg.length
  let zeros := List.replicate ((119 - len % 64) % 64) 0
  let bitLen := 8 * len
  let lenBytes := (List.range 8).map (fun i => (bitLen >>> (8 * (7 - i))) % 256)
  msg ++ [0x80] ++ zeros ++ lenBytes

/-- SHA-256 of a byte list, as eight 32-bit words. -/
def sha256Words (msg : List Nat) : Hash8 :=
  let padded := padMessage msg
  (toBlocks padded.length padded).foldl compressBlock shaH0

/-- The sixteen lowercase hex digits. -/
def hexTable : List Char := "0123456789abcdef".data

/-- Lowercase hex digit of `n % 16`. -/
def hexChar (n : Nat) : Char := hexTable.getD (n % 16) '0'

/-- Eight-digit lowercase hex of a 32-bit word. -/
def wordToHex (w : Nat) : List Char :=
  (List.range 8).map (fun i => hexChar ((w >>> (4 * (7 - i))) % 16))

/-- The 64-character hex digest of a hash state. -/
def hash8ToHex (st : Hash8) : List Char :=
  wordToHex st.a ++ wordToHex st.b ++ wordToHex st.c ++ wordToHex st.d ++
  wordToHex st.e ++ wordToHex st.f ++ wordToHex st.g ++ wordToHex st.h

/-- UTF-8 encoding of one character. -/
def utf8Char (c : Char) : List Nat :=
  let n := c.toNat
  if n < 0x80 then [n]
  else if n < 0x800 then [0xC0 ||| (n >>> 6), 0x80 ||| (n &&& 0x3F)]
  else if n < 0x10000 then
    [0xE0 ||| (n >>> 12), 0x80 ||| ((n >>> 6) &&& 0x3F), 0x80 ||| (n &&& 0x3F)]
  else
    [0xF0 ||| (n >>> 18), 0x80 ||| ((n >>> 12) &&& 0x3F),
     0x80 ||| ((n >>> 6) &&& 0x3F), 0x80 ||| (n &&& 0x3F)]

/-- UTF-8 encoding of a string — Python `s.encode()`. -/
def utf8Encode (s : String) : List Nat := s.data.flatMap utf8Char

/-- `hashlib.sha256(s.encode()).hexdigest()`. -/
def sha256Hex (s : String) : String :=
  String.mk (hash8ToHex (sha256Words (utf8Encode s)))

/-! ## JSON serialization of the extra cache parameters

`_generate_cache_key` serializes `sorted(kwargs.items())` with
`json.dumps(..., sort_keys=True)`.  The kwargs actually passed by the
code are an `int` (`top_k`) and a `str` (`model`), so values are
modelled as `Int ⊕ String`; `sort_keys` is irrelevant for a list of
pairs, and `sorted` on tuples with pairwise-distinct first components
orders by key alone. -/

/-- A kwargs value: Python `int` or `str`. -/
inductive PyVal where
  | i (v : Int)
  | s (v : String)
deriving DecidableEq

/-- The `**kwargs` of a cache call, in insertion order. -/
abbrev Kwargs := List (String × PyVal)

/-- Code-point lexicographic `≤` on char lists — Python string comparison. -/
def strLeL : List Char → List Char → Bool
  | [], _ => true
  | _ :: _, [] => false
  | a :: as_, b :: bs => a < b || (a = b && strLeL as_ bs)

/-- Ordered insertion for `sortKwargs`. -/
def insertByKey (x : String × PyVal) : Kwargs → Kwargs
  | [] => [x]
  | y :: rest =>
    if strLeL x.1.data y.1.data then x :: y :: rest else y :: insertByKey x rest

/-- Python `sorted(kwargs.items())` (stable; keys of a dict are distinct,
so only keys are ever compared). -/
def sortKwargs : Kwargs → Kwargs
  | [] => []
  | x :: rest => insertByKey x (sortKwargs rest)

/-- Four-digit lowercase hex (the `\uXXXX` payload). -/
def hex4 (n : Nat) : List Char :=
  [hexChar ((n >>> 12) % 16), hexChar ((n >>> 8) % 16), hexChar ((n >>> 4) % 16), hexChar (n % 16)]

/-- `json.dumps` escaping of one character (`ensure_ascii=True`, the
default): the two-character escapes for `"`, `\`, and the control
shorthands; `\uXXXX` for other control or non-ASCII characters, with a
surrogate pair for astral code points. -/
def jsonEscChar (c : Char) : List Char :=
  let n := c.toNat
  if c = '"' then ['\\', '"']
  else if c = '\\' then ['\\', '\\']
  else if c = '\n' then ['\\', 'n']
  else if c = '\t' then ['\\', 't']
  else if c = '\r' then ['\\', 'r']
  else if c = '\x08' then ['\\', 'b']
  else if c = '\x0c' then ['\\', 'f']
  else if n < 0x20 then '\\' :: 'u' :: hex4 n
  else if n < 0x7f then [c]
  else if n < 0x10000 then '\\' :: 'u' :: hex4 n
  else
    ('\\' :: 'u' :: hex4 (0xD800 + ((n - 0x10000) >>> 10))) ++
    ('\\' :: 'u' :: hex4 (0xDC00 + ((n - 0x10000) &&& 0x3FF)))

/-- The escaped body of a JSON string literal. -/
def escBody (l : List Char) : List Char := l.flatMap jsonEscChar

/-- `json.dumps` of a `str`. -/
def jsonStr (s : String) : List Char := '"' :: escBody s.data ++ ['"']

/-- Decimal digits of a natural number, least significant first (fuelled). -/
def natDigitsAux : Nat → Nat → List Char
  | 0, _ => []
  | fuel + 1, n => if n < 10 then [hexChar n] else hexChar (n % 10) :: natDigitsAux fuel (n / 10)

/-- Decimal representation of a natural number — Python `str(n)` for `n ≥ 0`. -/
def natDec (n : Nat) : List Char := (natDigitsAux (n + 1) n).reverse

/-- Python `str(int)` / `json.dumps(int)`. -/
def intDec : Int → List Char
  | Int.ofNat n => natDec n
  | Int.negSucc n => '-' :: natDec (n + 1)

/-- `json.dumps` of a kwargs value. -/
def jsonVal : PyVal → List Char
  | .i v => intDec v
  | .s v => jsonStr v

/-- `json.dumps` of one `(key, value)` tuple (a two-element JSON array,
default separators). -/
def jsonItem (kv : String × PyVal) : List Char :=
  '[' :: jsonStr kv.1 ++ (',' :: ' ' :: jsonVal kv.2) ++ [']']

/-- `json.dumps(sorted_kwargs, sort_keys=True)` with default separators:
a JSON array of two-element arrays. -/
def jsonKwargs (l : Kwargs) : List Char :=
  '[' :: joinSepL [',', ' '] (l.map jsonItem) ++ [']']

/-! ## The answer cache (`src/backend/cache/redis_cache.py`)

The Redis key space is modelled as an association list from keys to
stored entries.  JSON round-tripping of the stored payload
(`json.dumps` on write, `json.loads` on read) is modelled as the
identity on a payload record.  TTLs are stored but never expire inside
the model (the claims about the cache are all "before TTL expiry"). -/

/-- `RedisCacheManager._generate_cache_key`'s pre-hash cache string:
`f"{content_id}:{normalized_question}"`, plus
`":" + json.dumps(sorted(kwargs.items()), sort_keys=True)` when kwargs
are present. -/
def cacheString (question content_id : String) (kwargs : Kwargs) : String :=
  let normalized := pyStrip (pyLower question)
  let base := content_id ++ ":" ++ normalized
  if kwargs.isEmpty then base
  else base ++ ":" ++ String.mk (jsonKwargs (sortKwargs kwargs))

/-- `RedisCacheManager._generate_cache_key`: SHA-256 of the cache string,
prefixed with `chembot:qa:`. -/
def generateCacheKey (question content_id : String) (kwargs : Kwargs) : String :=
  "chembot:qa:" ++ sha256Hex (cacheString question content_id kwargs)

/-- The answer payload cached by the engine (`AnswerResult` in the spec):
the dict assembled in `QueryEngine.answer_question` step 5 and in
`ChatbotEngine.ask_question_stream`'s `cache_data`.  `response_time_ms`
is a wall-clock measurement and is carried as an opaque number. -/
structure AnswerData where
  answer : String
  confidence_score : ℚ
  response_time_ms : Nat
  model_used : String
  tokens_used : Nat
  source_chunks : List String
  cached : Bool
deriving DecidableEq

/-- What `cache_answer` stores under a key: the payload with
`cached = True` plus the key itself (`cache_key`). -/
structure CacheRecord where
  data : AnswerData
  cache_key : String
deriving DecidableEq

/-- The Redis database restricted to the `chembot:qa:` key space. -/
abbrev RedisStore := List (String × CacheRecord)

/-- Redis `SETEX`: overwrite any entry under `key`, then store. -/
def kvInsert (db : RedisStore) (key : String) (v : CacheRecord) : RedisStore :=
  db.filter (fun kv => kv.1 != key) ++ [(key, v)]

/-- `RedisCacheManager.cache_answer` (cache enabled and reachable):
generate the key, add `cached: True` and `cache_key`, store with TTL. -/
def cacheAnswer (db : RedisStore) (question content_id : String)
    (answer_data : AnswerData) (kwargs : Kwargs) : RedisStore :=
  let key := generateCacheKey question content_id kwargs
  kvInsert db key ⟨{ answer_data with cached := true }, key⟩

/-- `RedisCacheManager.get_cached_answer` (cache enabled and reachable):
generate the key and return the stored entry, if any. -/
def getCachedAnswer (db : RedisStore) (question content_id : String)
    (kwargs : Kwargs) : Option CacheRecord :=
  db.lookup (generateCacheKey question content_id kwargs)

/-- Whether a key matches the Redis SCAN glob `f"chembot:qa:*{content_id}*"`
used by `invalidate_content_cache` (for a `content_id` free of glob
metacharacters, which every caller satisfies): the key starts with the
literal `chembot:qa:` and `content_id` occurs somewhere in the rest. -/
def scanPatMatch (content_id key : String) : Bool :=
  "chembot:qa:".data.isPrefixOf key.data &&
    containsSubL (key.data.drop 11) content_id.data

/-- `RedisCacheManager.invalidate_content_cache`: delete every key
matching the glob `chembot:qa:*{content_id}*`. -/
def invalidateContentCache (db : RedisStore) (content_id : String) : RedisStore :=
  db.filter (fun kv => !(scanPatMatch content_id kv.1))

/-! ## Chunking (`src/backend/rag/chunking.py`)

Chunk metadata is a Python dict; it is modelled as an association list
observed through lookup, with dict assignment (`{**m, k: v}` /
`m.update({...})`) replacing any previous binding. -/

/-- A metadata value: the code stores strings, ints and bools. -/
inductive MVal where
  | n (v : Nat)
  | s (v : String)
  | b (v : Bool)
deriving DecidableEq

/-- Chunk metadata — a Python dict observed through lookup. -/
abbrev Meta := List (String × MVal)

/-- Dict assignment `m[k] = v`: drop any previous binding, add the new one. -/
def metaSet (m : Meta) (k : String) (v : MVal) : Meta :=
  m.filter (fun kv => kv.1 != k) ++ [(k, v)]

/-- Sequential dict update `{**m, k₁: v₁, k₂: v₂, …}` / `m.update({...})`. -/
def metaSetMany (m : Meta) (updates : List (String × MVal)) : Meta :=
  updates.foldl (fun acc kv => metaSet acc kv.1 kv.2) m

/-- Dict lookup. -/
def metaGet (m : Meta) (k : String) : Option MVal := m.lookup k

/-- `chunking.Chunk`: `word_count` is computed from the text on
construction, exactly as in `Chunk.__init__`. -/
structure Chunk where
  text : String
  metadata : Meta
  word_count : Nat
deriving DecidableEq

/-- `Chunk(text=..., metadata=...)`. -/
def mkChunk (text : String) (md : Meta) : Chunk :=
  ⟨text, md, wordCount text⟩

/-- The source material of one emitted heuristic chunk: the accumulated
`current` list (paragraphs, or sentences on the sentence path) and the
separator its text was joined with (`"\n\n"`, resp. `" "`). -/
structure Grp where
  sep : String
  elems : List String
deriving DecidableEq

/-- The crux of `_get_overlap_text` and of the inline sentence-overlap
loop: walking the accumulated list from the end, keep elements while the
running word count stays within `overlap`, stopping at the first that
does not fit.  The input here is the reversed list; the output is in
original order. -/
def revPreFit (overlap used : Nat) : List String → List String
  | [] => []
  | p :: rest =>
    if used + wordCount p ≤ overlap then p :: revPreFit overlap (used + wordCount p) rest
    else []

/-- The trailing window of `elems` totaling at most `overlap` words. -/
def takeTailFit (overlap : Nat) (elems : List String) : List String :=
  (revPreFit overlap 0 elems.reverse).reverse

/-- `HeuristicChunker._get_overlap_text`, generalized over the joining
separator so that it also states the inline sentence-overlap loop
(`"\n\n"` for paragraphs, `" "` for sentences). -/
def overlapTail (overlap : Nat) (sep : String) (elems : List String) : String :=
  if elems.isEmpty || overlap == 0 then ""
  else joinSep sep (takeTailFit overlap elems)

/-- Builds one paragraph chunk of `HeuristicChunker.chunk`, paired with
its source group. -/
def mkParaChunk (md : Meta) (idx : Nat) (cur : List String) : Chunk × Grp :=
  (mkChunk (joinSep "\n\n" cur)
    (metaSetMany md
      [("chunk_index", .n idx), ("chunking_strategy", .s "heuristic"),
       ("paragraph_count", .n cur.length)]),
   ⟨"\n\n", cur⟩)

/-- Builds one sentence chunk of `HeuristicChunker._chunk_by_sentences`. -/
def mkSentChunk (md : Meta) (idx : Nat) (cur : List String) : Chunk × Grp :=
  (mkChunk (joinSep " " cur)
    (metaSetMany md
      [("chunk_index", .n idx), ("chunking_strategy", .s "heuristic_sentence"),
       ("sentence_count", .n cur.length)]),
   ⟨" ", cur⟩)

/-- The loop of `HeuristicChunker._chunk_by_sentences`: `acc` holds the
chunks produced so far by this call (the caller extends its own list
with them, so their indices are `startIdx + position`), `cur` the
accumulated sentences, `cw` the running word count. -/
def chunkSentencesAux (size overlap : Nat) (md : Meta) (startIdx : Nat) :
    List String → List (Chunk × Grp) → List String → Nat → List (Chunk × Grp)
  | [], acc, cur, _ =>
    if cur.isEmpty then acc else acc ++ [mkSentChunk md (startIdx + acc.length) cur]
  | s :: rest, acc, cur, cw =>
    let swc := wordCount s
    if cw + swc > size && !cur.isEmpty then
      let acc' := acc ++ [mkSentChunk md (startIdx + acc.length) cur]
      let cur' := if overlap > 0 then takeTailFit overlap cur else []
      let cw' := (cur'.map wordCount).sum
      chunkSentencesAux size overlap md startIdx rest acc' (cur' ++ [s]) (cw' + swc)
    else
      chunkSentencesAux size overlap md startIdx rest acc (cur ++ [s]) (cw + swc)

/-- `HeuristicChunker._chunk_by_sentences`. -/
def chunkBySentences (size overlap : Nat) (md : Meta) (startIdx : Nat)
    (text : String) : List (Chunk × Grp) :=
  chunkSentencesAux size overlap md startIdx (splitSentences text) [] [] 0

/-- The paragraph loop of `HeuristicChunker.chunk`.  On overflow with a
non-empty accumulator: emit the chunk, seed the next accumulator with
the overlap window; a paragraph larger than `chunk_size` is then split
by sentences (the seeded accumulator stays for later paragraphs),
otherwise the paragraph is appended. -/
def heuristicAux (size overlap : Nat) (md : Meta) :
    List String → List (Chunk × Grp) → List String → Nat → List (Chunk × Grp)
  | [], acc, cur, _ =>
    if cur.isEmpty then acc else acc ++ [mkParaChunk md acc.length cur]
  | p :: rest, acc, cur, cw =>
    let pwc := wordCount p
    if cw + pwc > size then
      let st :=
        if cur.isEmpty then (acc, cur, cw)
        else
          let acc' := acc ++ [mkParaChunk md acc.length cur]
          let o := overlapTail overlap "\n\n" cur
          if o.isEmpty then (acc', ([] : List String), 0)
          else (acc', [o], wordCount o)
      if pwc > size then
        heuristicAux size overlap md rest
          (st.1 ++ chunkSentencesAux size overlap md st.1.length (splitSentences p) [] [] 0)
          st.2.1 st.2.2
      else
        heuristicAux size overlap md rest st.1 (st.2.1 ++ [p]) (st.2.2 + pwc)
    else
      heuristicAux size overlap md rest acc (cur ++ [p]) (cw + pwc)

/-- `HeuristicChunker.chunk`, with each chunk paired with the accumulated
list it was emitted from. -/
def heuristicChunkG (size overlap : Nat) (md : Meta) (text : String) :
    List (Chunk × Grp) :=
  heuristicAux size overlap md (splitParagraphs text) [] [] 0

/-- `HeuristicChunker.chunk`. -/
def heuristicChunk (size overlap : Nat) (md : Meta) (text : String) : List Chunk :=
  (heuristicChunkG size overlap md text).map Prod.fst

/-- One markdown section of `SemanticChunker._parse_markdown_sections`. -/
structure MdSection where
  title : String
  level : Nat
  text : String
deriving DecidableEq

/-- `re.match(r'^(#{1,6})\s+(.+)$', line)`: 1–6 leading `#`, at least one
whitespace, then a non-empty remainder (group 2; when the remainder is
all whitespace, backtracking leaves its last character to group 2). -/
def headerMatch (line : String) : Option (Nat × String) :=
  let hs := (line.data.takeWhile (· = '#')).length
  let rest := line.data.drop hs
  if 1 ≤ hs && hs ≤ 6 then
    match rest with
    | [] => none
    | c :: more =>
      if pyIsSpace c && !more.isEmpty then
        let t := rest.dropWhile pyIsSpace
        some (hs, String.mk (pyStripL (if t.isEmpty then [rest.getLastD ' '] else t)))
      else none
  else none

/-- Folding state of `_parse_markdown_sections`. -/
structure ParseSt where
  title : String
  level : Nat
  lines : List String
  acc : List MdSection

/-- Closes the current section if its joined, stripped text is non-empty. -/
def closeSection (st : ParseSt) : List MdSection :=
  if st.lines.isEmpty then st.acc
  else
    let t := pyStrip (joinSep "\n" st.lines)
    if t.isEmpty then st.acc else st.acc ++ [⟨st.title, st.level, t⟩]

/-- `SemanticChunker._parse_markdown_sections`. -/
def parseMarkdownSections (text : String) : List MdSection :=
  let step := fun (st : ParseSt) (line : String) =>
    match headerMatch line with
    | some (level, title) => ({ title, level, lines := [line], acc := closeSection st } : ParseSt)
    | none => { st with lines := st.lines ++ [line] }
  closeSection ((pySplitOn text "\n").foldl step ⟨"Introduction", 0, [], []⟩)

/-- `SemanticChunker.chunk`: a section within `chunk_size` becomes one
chunk indexed `len(chunks)`; an oversized one is delegated to the
heuristic chunker and the sub-chunks are appended after updating only
`chunking_strategy` and `is_complete_section` — their `chunk_index`
from the sub-chunker is kept as is. -/
def semanticChunk (size overlap : Nat) (md : Meta) (text : String) : List Chunk :=
  (parseMarkdownSections text).foldl
    (fun chunks sec =>
      if wordCount sec.text ≤ size then
        chunks ++ [mkChunk sec.text
          (metaSetMany md
            [("chunk_index", .n chunks.length), ("chunking_strategy", .s "semantic"),
             ("section_title", .s sec.title), ("section_level", .n sec.level),
             ("is_complete_section", .b true)])]
      else
        let sub := heuristicChunk size overlap
          (metaSetMany md
            [("parent_section", .s sec.title), ("section_level", .n sec.level)]) sec.text
        chunks ++ sub.map (fun c =>
          let m2 := metaSetMany c.metadata
            [("chunking_strategy", .s "semantic_hybrid"), ("is_complete_section", .b false)]
          { c with metadata := m2 }))
    []

/-- The stripped `---SPLIT---` segments of an LLM split response. -/
def llmSplitSegs (resp : String) : List String :=
  (pySplitOn resp "---SPLIT---").map pyStrip

/-- The section loop of `IntelligentChunker._llm_split_chunk`: `i`
enumerates all segments (kept or not); a segment is kept when its
stripped text is truthy and its word count exceeds 50. -/
def llmSections (md : Meta) (model : String) (baseIndex : Nat) :
    Nat → List String → List Chunk
  | _, [] => []
  | i, sec :: rest =>
    let s := pyStrip sec
    if !s.isEmpty && wordCount s > 50 then
      mkChunk s
        (metaSetMany md
          [("chunk_index", .n (baseIndex * 10 + i)),
           ("chunking_strategy", .s "intelligent_llm"),
           ("llm_model", .s model)]) :: llmSections md model baseIndex (i + 1) rest
    else llmSections md model baseIndex (i + 1) rest

/-- `IntelligentChunker._llm_split_chunk`: `resp` is the provider's
response (`none` models a raised provider error, handled by falling back
to the heuristic chunker); when no segment qualifies the whole text is
returned as a single bare chunk. -/
def llmSplitChunk (size overlap : Nat) (md : Meta) (model : String)
    (baseIndex : Nat) (text : String) (resp : Option String) : List Chunk :=
  match resp with
  | none => heuristicChunk size overlap md text
  | some r =>
    let chunks := llmSections md model baseIndex 0 (pySplitOn r "---SPLIT---")
    if chunks.isEmpty then [mkChunk text md] else chunks

/-- `IntelligentChunker.chunk`: short texts short-circuit; otherwise the
semantic base chunks are refined, sending any chunk with
`word_count > 1.5 * chunk_size` through the LLM split (`llm` gives the
provider's response for a chunk text). -/
def intelligentChunk (size overlap : Nat) (md : Meta) (model : String)
    (llm : String → Option String) (text : String) : List Chunk :=
  if wordCount text ≤ size then
    [mkChunk text (metaSetMany md
      [("chunk_index", .n 0), ("chunking_strategy", .s "intelligent_single")])]
  else
    ((semanticChunk size overlap md text).enum.foldl
      (fun refined ic =>
        if 2 * ic.2.word_count > 3 * size then
          refined ++ llmSplitChunk size overlap md model ic.1 ic.2.text (llm ic.2.text)
        else
          let m2 := metaSetMany ic.2.metadata
            [("chunking_strategy", .s "intelligent"), ("chunk_index", .n refined.length)]
          refined ++ [{ ic.2 with metadata := m2 }])
      [])

/-! ## The retry executor (`src/backend/utils/rate_limiter.py`)

`RateLimiter.execute_with_retry` is embedded as a pure function over a
script of per-invocation outcomes.  `retry_delay` and `retry_backoff`
are Python floats, modelled as rationals; the `asyncio.sleep` delays are
returned as a list.  The semaphore only affects scheduling across
concurrent requests and has no bearing on the single-call claims. -/

/-- The exceptions `execute_with_retry` distinguishes:
`litellm.RateLimitError`, `litellm.APIError`, anything else. -/
inductive PyErr where
  | rateLimitError (msg : String)
  | apiError (msg : String)
  | otherError (msg : String)
deriving DecidableEq

/-- The outcome of one invocation of the wrapped operation. -/
inductive CallResult where
  | ok (v : Nat)
  | raises (e : PyErr)

/-- `RateLimiter._is_retryable_error`: substring markers over the
lowercased error text. -/
def isRetryableError (msg : String) : Bool :=
  ["timeout", "connection", "503", "502", "500", "429", "server error"].any
    (fun p => containsSubL (pyLower msg).data p.data)

/-- The retry configuration of `RateLimiter.__init__`. -/
structure RLConfig where
  maxRetries : Nat
  retryDelay : ℚ
  retryBackoff : ℚ

/-- The statistics counters of `RateLimiter`. -/
structure RLStats where
  total_requests : Nat
  successful_requests : Nat
  failed_requests : Nat
  retried_requests : Nat
deriving DecidableEq

/-- A fresh limiter's counters. -/
def rlInit : RLStats := ⟨0, 0, 0, 0⟩

/-- What one call to `execute_with_retry` produced: the returned value or
raised error, the number of invocations of the wrapped operation, the
backoff sleeps in order, and the updated counters. -/
structure RLResult where
  result : Except PyErr Nat
  calls : Nat
  delays : List ℚ
  stats : RLStats

/-- The `for attempt in range(max_retries + 1)` loop of
`execute_with_retry`.  `left` counts the remaining iterations; the empty
case is the (unreachable) fall-through after the loop, which increments
`failed_requests` and re-raises the last exception. -/
def executeLoop (cfg : RLConfig) (op : Nat → CallResult) :
    Nat → Nat → RLStats → List ℚ → Nat → Option PyErr → RLResult
  | 0, _, st, ds, calls, lastExc =>
    { result := .error (lastExc.getD (.otherError "Request failed after all retries")),
      calls, delays := ds, stats := { st with failed_requests := st.failed_requests + 1 } }
  | left + 1, attempt, st, ds, calls, _ =>
    match op attempt with
    | .ok v =>
      { result := .ok v, calls := calls + 1, delays := ds,
        stats := { st with
          successful_requests := st.successful_requests + 1,
          retried_requests := st.retried_requests + (if attempt > 0 then 1 else 0) } }
    | .raises (.rateLimitError m) =>
      if attempt < cfg.maxRetries then
        executeLoop cfg op left (attempt + 1) st
          (ds ++ [cfg.retryDelay * cfg.retryBackoff ^ attempt]) (calls + 1)
          (some (.rateLimitError m))
      else
        { result := .error (.rateLimitError m), calls := calls + 1, delays := ds,
          stats := { st with failed_requests := st.failed_requests + 1 } }
    | .raises (.apiError m) =>
      if attempt < cfg.maxRetries && isRetryableError m then
        executeLoop cfg op left (attempt + 1) st
          (ds ++ [cfg.retryDelay * cfg.retryBackoff ^ attempt]) (calls + 1)
          (some (.apiError m))
      else
        { result := .error (.apiError m), calls := calls + 1, delays := ds,
          stats := { st with failed_requests := st.failed_requests + 1 } }
    | .raises (.otherError m) =>
      { result := .error (.otherError m), calls := calls + 1, delays := ds,
        stats := { st with failed_requests := st.failed_requests + 1 } }

/-- `RateLimiter.execute_with_retry`, started from counters `st0`;
`op n` is the outcome of invocation number `n` (0-based). -/
def executeWithRetry (cfg : RLConfig) (st0 : RLStats) (op : Nat → CallResult) : RLResult :=
  executeLoop cfg op (cfg.maxRetries + 1) 0
    { st0 with total_requests := st0.total_requests + 1 } [] 0 none

/-! ## The query classifier (`src/backend/chatbot/query_classifier.py`) -/

/-- A classification result (the dict returned by `classify_query`; the
confidence is a Python float, modelled as a rational). -/
structure Classification where
  is_question : Bool
  is_relevant : Bool
  question_type : String
  confidence : ℚ
  reasoning : String

/-- `QueryClassifier.should_store_question`. -/
def shouldStoreQuestion (c : Classification) : Bool :=
  c.is_question && c.is_relevant && decide ((6 : ℚ) / 10 ≤ c.confidence)

/-! ## Provider call sites

The spec's routing claim is about which outbound `litellm` calls go
through `RateLimiter.execute_with_retry`.  The call sites of
`litellm.acompletion` / `litellm.aembedding` in the core are enumerated
below; `routedThroughRetryExecutor` records, per site, whether the
source wraps the call in `execute_with_retry`. -/

/-- The outbound generation/embedding provider call sites of the core. -/
inductive ProviderCallSite where
  /-- `QueryEngine._generate_answer`, `query_engine.py` line 190:
  `await self.rate_limiter.execute_with_retry(litellm.acompletion, ...)`. -/
  | answerGeneration
  /-- `QueryEngine.answer_question_stream`, `query_engine.py` line 293:
  `await self.rate_limiter.execute_with_retry(litellm.acompletion, ..., stream=True)`. -/
  | streamingGeneration
  /-- `QueryClassifier.classify_query`, `query_classifier.py` line 63:
  `await litellm.acompletion(...)` — called directly. -/
  | queryClassification
  /-- `IntelligentChunker._llm_split_chunk`, `chunking.py` line 373:
  `await litellm.acompletion(...)` — called directly. -/
  | intelligentChunkSplit
  /-- `VectorStoreManager.generate_embedding`, `vector_store.py` line 318,
  on the `store_chunks` ingest path: `await litellm.aembedding(...)` —
  called directly. -/
  | chunkEmbedding
  /-- `VectorStoreManager.generate_embedding`, `vector_store.py` line 318,
  on the `search_similar` query path: `await litellm.aembedding(...)` —
  called directly. -/
  | queryTextEmbedding
deriving DecidableEq

/-- All provider call sites. -/
def allProviderCallSites : List ProviderCallSite :=
  [.answerGeneration, .streamingGeneration, .queryClassification,
   .intelligentChunkSplit, .chunkEmbedding, .queryTextEmbedding]

/-- Whether the source wraps the site's provider call in
`RateLimiter.execute_with_retry` (see the constructor doc comments for
the `file:line` of each call). -/
def routedThroughRetryExecutor : ProviderCallSite → Bool
  | .answerGeneration => true
  | .streamingGeneration => true
  | .queryClassification => false
  | .intelligentChunkSplit => false
  | .chunkEmbedding => false
  | .queryTextEmbedding => false

/-! ## Conversation window (`src/backend/chatbot/conversation_manager.py`) -/

/-- A conversation turn (the wall-clock timestamp is outside the model). -/
structure Turn where
  question : String
  answer : String
deriving DecidableEq

/-- The in-memory conversation map, keyed by `f"{content_id}_{user_id}"`. -/
abbrev Conversations := List (String × List Turn)

/-- `ConversationManager._get_conversation_key`. -/
def convKey (content_id user_id : String) : String := content_id ++ "_" ++ user_id

/-- Python `l[-k:]` for `k = maxHistory` (note `l[-0:]` is the whole list). -/
def lastSlice (maxHistory : Nat) (l : List Turn) : List Turn :=
  if maxHistory == 0 then l else l.drop (l.length - maxHistory)

/-- `ConversationManager.add_turn`: append the turn, then truncate the
key's list to the last `max_history` entries. -/
def addTurn (convs : Conversations) (maxHistory : Nat)
    (content_id user_id question answer : String) : Conversations :=
  let key := convKey content_id user_id
  let cur := (convs.lookup key).getD []
  let new := cur ++ [⟨question, answer⟩]
  let new := if new.length > maxHistory then lastSlice maxHistory new else new
  convs.filter (fun kv => kv.1 != key) ++ [(key, new)]

/-- The most recent turn stored for a key. -/
def lastTurn (convs : Conversations) (content_id user_id : String) : Option Turn :=
  ((convs.lookup (convKey content_id user_id)).getD []).getLast?

/-! ## The streaming ask path

`ChatbotEngine.ask_question_stream` calling
`QueryEngine.answer_question_stream`.  The external collaborators are
abstracted into an environment: the retrieval result (or a raised
retrieval error) and the streamed generation outcome, either a normal
sequence of text increments or a failure after some prefix of them
(covering both an executor call that raises after exhausting retries
and a mid-stream error).  Database persistence and analytics are
external collaborators without engine-visible state and are omitted. -/

/-- Outcome of the streamed LLM call inside `answer_question_stream`. -/
inductive GenOutcome where
  | yields (parts : List String)
  | failsAfter (parts : List String)

/-- The environment of one streaming request. -/
structure StreamEnv where
  retrieval : Except Unit (List String)
  gen : GenOutcome
  responseTimeMs : Nat

/-- The canned no-context message yielded by `answer_question_stream`. -/
def noContextStreamMsg : String :=
  "I couldn't find relevant information in your uploaded content to answer this question."

/-- The canned message yielded by `answer_question_stream`'s exception
handler. -/
def streamErrorMsg : String :=
  "An error occurred while generating the answer. Please try again."

/-- The fixed guidance message for non-questions in `ask_question_stream`. -/
def notAQuestionMsg : String :=
  "I noticed this might not be a question. If you'd like to learn something specific from your material, please ask me a question!"

/-- The fixed scope message for off-topic questions in `ask_question_stream`. -/
def offTopicMsg : String :=
  "This question seems to be outside the scope of your uploaded learning material. I can only help with questions related to the content you've provided."

/-- `QueryEngine.answer_question_stream` as the list of yielded strings:
empty retrieval yields the canned no-context message; a raised error
anywhere (retrieval, the executor call, or mid-stream) is caught by the
enclosing handler, which yields the canned error message after whatever
was already streamed. -/
def answerQuestionStream (env : StreamEnv) : List String :=
  match env.retrieval with
  | .error _ => [streamErrorMsg]
  | .ok [] => [noContextStreamMsg]
  | .ok (_ :: _) =>
    match env.gen with
    | .yields parts => parts
    | .failsAfter parts => parts ++ [streamErrorMsg]

/-- Replay of a cached answer in 10-character pieces (fuelled). -/
def chunkEvery10 : Nat → List Char → List String
  | 0, _ => []
  | _, [] => []
  | fuel + 1, l => String.mk (l.take 10) :: chunkEvery10 fuel (l.drop 10)

/-- The engine-visible mutable state of the streaming path. -/
structure EngineState where
  cache : RedisStore
  conv : Conversations
deriving DecidableEq

/-- The extra cache parameters every `ask_question_stream` cache call
passes: `top_k=5, model=self.query_engine.llm_model`. -/
def streamKwargs (model : String) : Kwargs := [("top_k", .i 5), ("model", .s model)]

/-- The `cache_data` dict assembled after a completed stream. -/
def streamCacheData (full model : String) (t : Nat) : AnswerData :=
  ⟨full, 8 / 10, t, model, 0, [], false⟩

/-- `ChatbotEngine.ask_question_stream`: cache lookup (hit: replay in
10-character pieces), classification gate, streamed answer with local
accumulation, then — only on the generation path — cache write (when
`use_cache` and the accumulated answer is non-empty) and conversation
append.  Returns the yielded strings and the new engine state. -/
def askQuestionStream (st : EngineState) (model : String) (maxHistory : Nat)
    (question content_id user_id : String) (useCache : Bool)
    (cls : Classification) (env : StreamEnv) : List String × EngineState :=
  let kwargs := streamKwargs model
  let hit := if useCache then getCachedAnswer st.cache question content_id kwargs else none
  match hit with
  | some entry => (chunkEvery10 entry.data.answer.data.length entry.data.answer.data, st)
  | none =>
    if !cls.is_question then ([notAQuestionMsg], st)
    else if !cls.is_relevant then ([offTopicMsg], st)
    else
      let out := answerQuestionStream env
      let full := String.join out
      let cache' :=
        if useCache && !(full == "") then
          cacheAnswer st.cache question content_id
            (streamCacheData full model env.responseTimeMs) kwargs
        else st.cache
      let conv' := addTurn st.conv maxHistory content_id user_id question full
      (out, ⟨cache', conv'⟩)

/-! ## Proof-support definitions

Inverses and defaults used only to state and prove the theorems below. -/

/-- Value of a hex digit character. -/
def hexVal (c : Char) : Nat :=
  if c.toNat ≤ 57 then c.toNat - 48 else c.toNat - 87

/-- Decodes the second half of a `\uXXXX\uXXXX` surrogate pair, given
the value `n` of the first half. -/
def decodePair (n : Nat) : List Char → Option (Char × List Char)
  | '\\' :: 'u' :: g1 :: g2 :: g3 :: g4 :: rest3 =>
      some (Char.ofNat (0x10000 + (n - 0xD800) * 1024 +
        (hexVal g1 * 4096 + hexVal g2 * 256 + hexVal g3 * 16 + hexVal g4 - 0xDC00)), rest3)
  | _ => none

/-- Decodes one JSON string-escape code; left inverse of `jsonEscChar`. -/
def decodeEsc : List Char → Option (Char × List Char)
  | '\\' :: 'u' :: h1 :: h2 :: h3 :: h4 :: rest2 =>
    (if 0xD800 ≤ hexVal h1 * 4096 + hexVal h2 * 256 + hexVal h3 * 16 + hexVal h4 ∧
        hexVal h1 * 4096 + hexVal h2 * 256 + hexVal h3 * 16 + hexVal h4 ≤ 0xDBFF then
      decodePair (hexVal h1 * 4096 + hexVal h2 * 256 + hexVal h3 * 16 + hexVal h4) rest2
    else some (Char.ofNat (hexVal h1 * 4096 + hexVal h2 * 256 + hexVal h3 * 16 + hexVal h4), rest2))
  | '\\' :: '"' :: rest2 => some ('"', rest2)
  | '\\' :: '\\' :: rest2 => some ('\\', rest2)
  | '\\' :: 'n' :: rest2 => some ('\n', rest2)
  | '\\' :: 't' :: rest2 => some ('\t', rest2)
  | '\\' :: 'r' :: rest2 => some ('\r', rest2)
  | '\\' :: 'b' :: rest2 => some ('\x08', rest2)
  | '\\' :: 'f' :: rest2 => some ('\x0c', rest2)
  | '\\' :: _ => none
  | c :: rest => some (c, rest)
  | [] => none

/-- Decimal value of a digit string; left inverse of `natDec`. -/
def decValue (l : List Char) : Nat :=
  l.foldl (fun a c => 10 * a + (c.toNat - 48)) 0

/-- A junk chunk used as the default of `List.getD`. -/
def chunkDflt : Chunk := ⟨"", [], 0⟩

/-- A junk chunk/group pair used as the default of `List.getD`. -/
def cgDflt : Chunk × Grp := (chunkDflt, ⟨"", []⟩)

/-- The concrete document of the `chunk_index` counterexample: a small
section followed by a section whose word count exceeds the configured
`chunk_size` of 5. -/
def c2Text : String := "# A\nw1 w2\n\n# B\nw1 w2 w3 w4 w5 w6 w7"

/-- The concrete document of the overlap counterexample: a small
paragraph followed by a paragraph larger than the configured
`chunk_size` of 3 (forcing the sentence-split path). -/
def c7Text : String := "a b\n\nc. d. e. f."

/-- A 51-word segment. -/
def seg51 : String := joinSep " " (List.replicate 51 "x")

/-- A 50-word segment. -/
def seg50 : String := joinSep " " (List.replicate 50 "w")

/-- A split response whose second marker-delimited segment has exactly 50
words. -/
def c8Resp : String := seg51 ++ "---SPLIT---" ++ seg50

/-! ## Supporting lemmas -/

theorem lookup_insert_self {α : Type} (A : List (String × α)) (k : String) (v : α) :
    (A.filter (fun kv => kv.1 != k) ++ [(k, v)]).lookup k = some v := by
  induction A with
  | nil => simp [List.lookup]
  | cons hd tl ih =>
    rcases eq_or_ne hd.1 k with h | h
    · simpa [List.filter_cons, h] using ih
    · have h1 : (hd.1 != k) = true := bne_iff_ne.mpr h
      have h2 : (k == hd.1) = false := beq_eq_false_iff_ne.mpr (Ne.symm h)
      simp only [List.filter_cons, h1, if_true, List.cons_append]
      simpa [List.lookup, h2] using ih

theorem metaGet_set_self (m : Meta) (k : String) (v : MVal) :
    metaGet (metaSet m k v) k = some v :=
  lookup_insert_self m k v

theorem metaGet_set_ne (m : Meta) (k k' : String) (v : MVal) (h : k' ≠ k) :
    metaGet (metaSet m k v) k' = metaGet m k' := by
  induction m with
  | nil => simp [metaGet, metaSet, List.lookup, beq_eq_false_iff_ne.mpr h]
  | cons hd tl ih =>
    by_cases hh : hd.1 = k
    · simp only [metaGet, metaSet, List.filter] at ih ⊢
      rw [show (hd.1 != k) = false by simp [bne, hh]]
      rw [show (List.lookup k' (hd :: tl)) = List.lookup k' tl by
        simp [List.lookup, show (k' == hd.1) = false by simp [hh, h]]]
      exact ih
    · simp only [metaGet, metaSet, List.filter] at ih ⊢
      rw [show (hd.1 != k) = true by simp [bne, hh]]
      by_cases hk : k' = hd.1
      · simp [List.lookup, hk]
      · simp only [List.cons_append, List.lookup,
          show (k' == hd.1) = false by simpa using hk]
        exact ih

theorem metaGet_chunk_index (md : Meta) (idx : Nat) (s1 s2 : String) (v1 v2 : MVal) :
    (s1 ≠ "chunk_index") → (s2 ≠ "chunk_index") →
    metaGet (metaSetMany md [("chunk_index", .n idx), (s1, v1), (s2, v2)]) "chunk_index"
      = some (.n idx) := by
  intro h1 h2
  simp only [metaSetMany, List.foldl]
  rw [metaGet_set_ne _ _ _ _ (Ne.symm h2), metaGet_set_ne _ _ _ _ (Ne.symm h1),
    metaGet_set_self]

/-! ## C3 — provider-call routing -/

/-- C3 counterexample: not every outbound provider call site routes
through `RateLimiter.execute_with_retry` — `QueryClassifier.classify_query`
invokes `litellm.acompletion` directly. -/
theorem claim3_counterexample :
    ¬ (∀ s : ProviderCallSite, routedThroughRetryExecutor s = true) :=
  fun h => absurd (h .queryClassification) (by decide)

/-- C3 (amended): of all the outbound generation/embedding call sites in
the core, exactly the buffered and the streaming answer generation in
`QueryEngine` are executed through `RetryExecutor.execute_with_retry`;
query classification, the intelligent-chunking split, and the embedding
of chunks and of query text invoke the provider directly. -/
theorem claim3_retry_routing :
    (∀ s : ProviderCallSite,
      routedThroughRetryExecutor s = true ↔
        (s = .answerGeneration ∨ s = .streamingGeneration)) ∧
    allProviderCallSites.filter routedThroughRetryExecutor
      = [.answerGeneration, .streamingGeneration] := by
  constructor
  · intro s; cases s <;> simp [routedThroughRetryExecutor]
  · rfl

/-! ## C9 — `should_store_question` -/

/-- C9: `should_store_question` is true exactly when the classification
is a relevant question with confidence at least 0.6; in particular it is
false at confidence 0.59 and true at 0.60. -/
theorem claim9_should_store_question :
    (∀ c : Classification, shouldStoreQuestion c = true ↔
      (c.is_question = true ∧ c.is_relevant = true ∧ (6 : ℚ) / 10 ≤ c.confidence)) ∧
    shouldStoreQuestion ⟨true, true, "general", 59 / 100, "r"⟩ = false ∧
    shouldStoreQuestion ⟨true, true, "general", 60 / 100, "r"⟩ = true := by
  refine ⟨fun c => ?_, ?_, ?_⟩
  · simp [shouldStoreQuestion, and_assoc]
  · simp only [shouldStoreQuestion, Bool.and_eq_false_iff]
    right; rw [decide_eq_false_iff_not]; norm_num
  · simp only [shouldStoreQuestion, Bool.and_eq_true]
    refine ⟨by simp, ?_⟩; rw [decide_eq_true_iff]; norm_num

/-! ## C4 / C5 — the retry executor -/

/-- C4 counterexample: with `max_retries = 2` and an operation that
always raises a rate-limit error, the operation is invoked 3 times —
more than the claimed bound of `max_retries` invocations in total. -/
theorem claim4_counterexample :
    ¬ ((executeWithRetry ⟨2, 1, 2⟩ rlInit
        (fun _ => .raises (.rateLimitError "429"))).calls ≤ 2) := by
  intro h
  have : (executeWithRetry ⟨2, 1, 2⟩ rlInit
      (fun _ => .raises (.rateLimitError "429"))).calls = 3 := rfl
  omega

theorem executeLoop_calls_le (cfg : RLConfig) (op : Nat → CallResult) :
    ∀ left attempt st ds calls lastExc,
      (executeLoop cfg op left attempt st ds calls lastExc).calls ≤ calls + left := by
  intro left
  induction left with
  | zero => intro attempt st ds calls lastExc; simp [executeLoop]
  | succ n ih =>
    intro attempt st ds calls lastExc
    simp only [executeLoop]
    rcases op attempt with v | e
    · dsimp only; omega
    · rcases e with m | m | m
      · dsimp only
        split
        · exact le_trans (ih ..) (by omega)
        · dsimp only; omega
      · dsimp only
        split
        · exact le_trans (ih ..) (by omega)
        · dsimp only; omega
      · dsimp only; omega

theorem executeLoop_delays (cfg : RLConfig) (op : Nat → CallResult) :
    ∀ left attempt st ds calls lastExc,
      ds.length = attempt →
      (∀ j, j < ds.length → ds.getD j 0 = cfg.retryDelay * cfg.retryBackoff ^ j) →
      ∀ j, j < (executeLoop cfg op left attempt st ds calls lastExc).delays.length →
        (executeLoop cfg op left attempt st ds calls lastExc).delays.getD j 0
          = cfg.retryDelay * cfg.retryBackoff ^ j := by
  intro left
  induction left with
  | zero => intro attempt st ds calls lastExc _ hds; simpa [executeLoop] using hds
  | succ n ih =>
    intro attempt st ds calls lastExc hlen hds
    have hstep : (ds ++ [cfg.retryDelay * cfg.retryBackoff ^ attempt]).length = attempt + 1 := by
      simp [hlen]
    have hall : ∀ j, j < (ds ++ [cfg.retryDelay * cfg.retryBackoff ^ attempt]).length →
        (ds ++ [cfg.retryDelay * cfg.retryBackoff ^ attempt]).getD j 0
          = cfg.retryDelay * cfg.retryBackoff ^ j := by
      intro j hj
      rcases lt_or_ge j ds.length with h | h
      · rw [List.getD_append _ _ _ _ h]; exact hds j h
      · have : j = ds.length := by simp at hj; omega
        subst this
        rw [List.getD_append_right _ _ _ _ h]
        simp [hlen]
    simp only [executeLoop]
    rcases op attempt with v | e
    · simpa using hds
    · rcases e with m | m | m
      · dsimp only
        split
        · exact ih _ _ _ _ _ hstep hall
        · simpa using hds
      · dsimp only
        split
        · exact ih _ _ _ _ _ hstep hall
        · simpa using hds
      · simpa using hds

/-- C4 (amended): a single `execute_with_retry` call invokes the wrapped
operation at most `max_retries + 1` times (that is, up to `max_retries`
retries after the first attempt), and the delay slept before the retry
that follows attempt number `attempt` (0-based) is
`retry_delay * retry_backoff ^ attempt`. -/
theorem claim4_retry_bounds (cfg : RLConfig) (st0 : RLStats) (op : Nat → CallResult) :
    (executeWithRetry cfg st0 op).calls ≤ cfg.maxRetries + 1 ∧
    ∀ j, j < (executeWithRetry cfg st0 op).delays.length →
      (executeWithRetry cfg st0 op).delays.getD j 0
        = cfg.retryDelay * cfg.retryBackoff ^ j := by
  constructor
  · simpa using executeLoop_calls_le cfg op (cfg.maxRetries + 1) 0 _ [] 0 none
  · exact executeLoop_delays cfg op (cfg.maxRetries + 1) 0 _ [] 0 none rfl (by simp)

/-- Witness for C4 (amended) at `max_retries = 2`, `retry_delay = 1`,
`retry_backoff = 2` and an operation that always raises a rate-limit
error: 3 invocations (within the bound) and a first backoff delay of
`1 * 2 ^ 0`. -/
theorem claim4_retry_bounds_witness :
    (executeWithRetry ⟨2, 1, 2⟩ rlInit (fun _ => .raises (.rateLimitError "429"))).calls ≤ 2 + 1 ∧
    (0 < (executeWithRetry ⟨2, 1, 2⟩ rlInit
        (fun _ => .raises (.rateLimitError "429"))).delays.length ∧
      (executeWithRetry ⟨2, 1, 2⟩ rlInit
        (fun _ => .raises (.rateLimitError "429"))).delays.getD 0 0 = (1 : ℚ) * 2 ^ 0) :=
  ⟨(claim4_retry_bounds ⟨2, 1, 2⟩ rlInit _).1,
   by decide,
   (claim4_retry_bounds ⟨2, 1, 2⟩ rlInit _).2 0 (by decide)⟩

/-- C5: with `max_retries = 2`, an operation raising a rate-limit error
on its first two invocations and returning a value on the third
succeeds with that value, is invoked exactly 3 times, and leaves
`retried_requests = 1`, `successful_requests = 1`, `failed_requests = 0`
starting from fresh counters. -/
theorem claim5_retry_then_succeed (op : Nat → CallResult) (v : Nat) (d b : ℚ)
    (m0 m1 : String)
    (h0 : op 0 = .raises (.rateLimitError m0))
    (h1 : op 1 = .raises (.rateLimitError m1))
    (h2 : op 2 = .ok v) :
    (executeWithRetry ⟨2, d, b⟩ rlInit op).result = .ok v ∧
    (executeWithRetry ⟨2, d, b⟩ rlInit op).calls = 3 ∧
    (executeWithRetry ⟨2, d, b⟩ rlInit op).stats = ⟨1, 1, 0, 1⟩ := by
  simp [executeWithRetry, executeLoop, h0, h1, h2, rlInit]

/-- Witness for C5 at a concrete operation failing twice with HTTP 429
and then returning 7. -/
theorem claim5_retry_then_succeed_witness :
    (executeWithRetry ⟨2, 1, 2⟩ rlInit
        (fun n => if n < 2 then .raises (.rateLimitError "429") else .ok 7)).result = .ok 7 ∧
    (executeWithRetry ⟨2, 1, 2⟩ rlInit
        (fun n => if n < 2 then .raises (.rateLimitError "429") else .ok 7)).calls = 3 ∧
    (executeWithRetry ⟨2, 1, 2⟩ rlInit
        (fun n => if n < 2 then .raises (.rateLimitError "429") else .ok 7)).stats = ⟨1, 1, 0, 1⟩ :=
  claim5_retry_then_succeed _ 7 1 2 "429" "429" rfl rfl rfl

/-! ## C2 — `chunk_index` contiguity -/

theorem append_idx_inv (base : Nat) (acc : List (Chunk × Grp)) (e : Chunk × Grp)
    (h : ∀ i, i < acc.length →
      metaGet ((acc.getD i cgDflt).1.metadata) "chunk_index" = some (.n (base + i)))
    (he : metaGet e.1.metadata "chunk_index" = some (.n (base + acc.length))) :
    ∀ i, i < (acc ++ [e]).length →
      metaGet (((acc ++ [e]).getD i cgDflt).1.metadata) "chunk_index" = some (.n (base + i)) := by
  intro i hi
  rcases lt_or_ge i acc.length with hl | hr
  · rw [List.getD_append _ _ _ _ hl]; exact h i hl
  · have hieq : i = acc.length := by simp at hi; omega
    subst hieq
    rw [List.getD_append_right _ _ _ _ hr]
    simpa using he

theorem mkParaChunk_idx (md : Meta) (idx : Nat) (cur : List String) :
    metaGet (mkParaChunk md idx cur).1.metadata "chunk_index" = some (.n idx) :=
  metaGet_chunk_index md idx _ _ _ _ (by decide) (by decide)

theorem mkSentChunk_idx (md : Meta) (idx : Nat) (cur : List String) :
    metaGet (mkSentChunk md idx cur).1.metadata "chunk_index" = some (.n idx) :=
  metaGet_chunk_index md idx _ _ _ _ (by decide) (by decide)

theorem sentAux_idx (size ov : Nat) (md : Meta) (startIdx : Nat) :
    ∀ sents acc cur cw,
      (∀ i, i < acc.length →
        metaGet ((acc.getD i cgDflt).1.metadata) "chunk_index" = some (.n (startIdx + i))) →
      ∀ i, i < (chunkSentencesAux size ov md startIdx sents acc cur cw).length →
        metaGet (((chunkSentencesAux size ov md startIdx sents acc cur cw).getD i
          cgDflt).1.metadata) "chunk_index" = some (.n (startIdx + i)) := by
  intro sents
  induction sents with
  | nil =>
    intro acc cur cw h
    simp only [chunkSentencesAux]
    split
    · exact h
    · exact append_idx_inv startIdx acc _ h (mkSentChunk_idx ..)
  | cons s rest ih =>
    intro acc cur cw h
    rw [chunkSentencesAux]
    dsimp only
    split
    · exact ih _ _ _ (append_idx_inv startIdx acc _ h (mkSentChunk_idx ..))
    · exact ih _ _ _ h

theorem heurAux_idx (size ov : Nat) (md : Meta) :
    ∀ paras acc cur cw,
      (∀ i, i < acc.length →
        metaGet ((acc.getD i cgDflt).1.metadata) "chunk_index" = some (.n i)) →
      ∀ i, i < (heuristicAux size ov md paras acc cur cw).length →
        metaGet (((heuristicAux size ov md paras acc cur cw).getD i cgDflt).1.metadata)
          "chunk_index" = some (.n i) := by
  intro paras
  induction paras with
  | nil =>
    intro acc cur cw h
    simp only [heuristicAux]
    split
    · exact h
    · simpa using append_idx_inv 0 acc _ (by simpa using h) (by simpa using mkParaChunk_idx ..)
  | cons p rest ih =>
    intro acc cur cw h
    rw [heuristicAux]
    dsimp only
    by_cases hover : cw + wordCount p > size
    · rw [if_pos hover]
      have hst : ∀ st1 : List (Chunk × Grp),
          (∀ i, i < st1.length →
            metaGet ((st1.getD i cgDflt).1.metadata) "chunk_index" = some (.n i)) →
          ∀ i, i < (st1 ++ chunkSentencesAux size ov md st1.length
              (splitSentences p) [] [] 0).length →
            metaGet (((st1 ++ chunkSentencesAux size ov md st1.length
              (splitSentences p) [] [] 0).getD i cgDflt).1.metadata) "chunk_index"
              = some (.n i) := by
        intro st1 hst1 i hi
        rcases lt_or_ge i st1.length with hl | hr
        · rw [List.getD_append _ _ _ _ hl]; exact hst1 i hl
        · rw [List.getD_append_right _ _ _ _ hr]
          have hlen : i - st1.length <
              (chunkSentencesAux size ov md st1.length (splitSentences p) [] [] 0).length := by
            simp only [List.length_append] at hi; omega
          have := sentAux_idx size ov md st1.length (splitSentences p) [] [] 0
            (by intro j hj; simp at hj) (i - st1.length) hlen
          rw [this]
          congr 1
          congr 1
          omega
      by_cases hcur : cur.isEmpty
      · simp only [hcur, if_true]
        by_cases hbig : wordCount p > size
        · rw [if_pos hbig]; exact ih _ _ _ (hst acc h)
        · rw [if_neg hbig]; exact ih _ _ _ h
      · simp only [hcur, if_false]
        have hinv : ∀ i, i < (acc ++ [mkParaChunk md acc.length cur]).length →
            metaGet (((acc ++ [mkParaChunk md acc.length cur]).getD i cgDflt).1.metadata)
              "chunk_index" = some (.n i) := by
          simpa using append_idx_inv 0 acc _ (by simpa using h)
            (by simpa using mkParaChunk_idx md acc.length cur)
        by_cases ho : (overlapTail ov "\n\n" cur).isEmpty
        · simp only [ho, if_true]
          by_cases hbig : wordCount p > size
          · rw [if_pos hbig]; exact ih _ _ _ (hst _ hinv)
          · rw [if_neg hbig]; exact ih _ _ _ hinv
        · simp only [ho, if_false]
          by_cases hbig : wordCount p > size
          · rw [if_pos hbig]; exact ih _ _ _ (hst _ hinv)
          · rw [if_neg hbig]; exact ih _ _ _ hinv
    · rw [if_neg hover]
      exact ih _ _ _ h

/-- C2 counterexample: on a document with a small markdown section
followed by an oversized one (`chunk_size = 5`), the semantic strategy
returns chunk indices `[0, 0]` — the heuristic delegation's 0-based
index is kept, so the sequence is neither contiguous nor strictly
increasing. -/
theorem claim2_counterexample :
    (semanticChunk 5 0 [] c2Text).map (fun c => metaGet c.metadata "chunk_index")
        = [some (.n 0), some (.n 0)] ∧
    (semanticChunk 5 0 [] c2Text).map (fun c => metaGet c.metadata "chunk_index")
        ≠ (List.range (semanticChunk 5 0 [] c2Text).length).map (fun i => some (.n i)) := by
  exact ⟨by decide, by decide⟩

/-- C2 (amended): the heuristic strategy (including its sentence-split
path) assigns `chunk_index` values that are contiguous and strictly
increasing, `0, 1, 2, …` in final document order; the semantic
strategy's heuristic delegation keeps the sub-chunker's 0-based indices
without renumbering, and the intelligent strategy's LLM split assigns
`base_index * 10 + i`, so those paths can repeat or skip indices. -/
theorem claim2_heuristic_indices (size ov : Nat) (md : Meta) (text : String) :
    ∀ i, i < (heuristicChunk size ov md text).length →
      metaGet (((heuristicChunk size ov md text).getD i chunkDflt).metadata) "chunk_index"
        = some (.n i) := by
  intro i hi
  have hlen : i < (heuristicChunkG size ov md text).length := by
    simpa [heuristicChunk] using hi
  have hbase := heurAux_idx size ov md (splitParagraphs text) [] [] 0
    (by intro j hj; simp at hj) i hlen
  rw [heuristicChunk]
  rw [List.getD_eq_getElem _ _ (by simpa [heuristicChunk] using hi), List.getElem_map]
  rw [(List.getD_eq_getElem _ cgDflt hlen).symm]
  exact hbase

/-- Witness for C2 (amended) on a concrete document. -/
theorem claim2_heuristic_indices_witness :
    1 < (heuristicChunk 3 2 [] c7Text).length ∧
    metaGet (((heuristicChunk 3 2 [] c7Text).getD 1 chunkDflt).metadata) "chunk_index"
      = some (.n 1) :=
  ⟨by decide, claim2_heuristic_indices 3 2 [] c7Text 1 (by decide)⟩

/-! ## C8 — the LLM split's minimum segment size -/

theorem llmSections_texts (md : Meta) (model : String) (baseIndex : Nat) :
    ∀ segs i,
      (llmSections md model baseIndex i segs).map Chunk.text
        = (segs.map pyStrip).filter (fun s => !s.isEmpty && decide (wordCount s > 50)) := by
  intro segs
  induction segs with
  | nil => intro i; rfl
  | cons sec rest ih =>
    intro i
    rw [llmSections]
    split
    · next hcond => simp only [List.map_cons, List.map, List.filter_cons, hcond, if_true]
                    rw [ih]
                    rfl
    · next hcond =>
      have : (!(pyStrip sec).isEmpty && decide (wordCount (pyStrip sec) > 50)) = false := by
        revert hcond; cases (!(pyStrip sec).isEmpty && decide (wordCount (pyStrip sec) > 50)) <;> simp
      simp only [List.map_cons, List.filter_cons, this, if_false]
      exact ih (i + 1)

/-- C8 counterexample: in a response holding a 51-word segment and a
50-word segment, the 50-word segment is a marker-delimited segment but
does not become a sub-chunk — the code keeps only segments with
strictly more than 50 words. -/
theorem claim8_counterexample :
    seg50 ∈ llmSplitSegs c8Resp ∧ wordCount seg50 = 50 ∧
    seg50 ∉ (llmSplitChunk 800 150 [] "m" 0 "orig" (some c8Resp)).map Chunk.text :=
  ⟨by decide, by decide, by decide⟩

/-- C8 (amended): in the intelligent strategy's LLM split, a
marker-delimited segment becomes a sub-chunk exactly when its stripped
text is non-empty and has strictly more than 50 words — a segment of
exactly 50 words is discarded, one of 51 words is kept; when no segment
qualifies, the whole original text is returned as a single chunk. -/
theorem claim8_llm_split_segments (size ov : Nat) (md : Meta) (model : String)
    (baseIndex : Nat) (text r : String) :
    (((pySplitOn r "---SPLIT---").map pyStrip).filter
        (fun s => !s.isEmpty && decide (wordCount s > 50)) ≠ [] →
      (llmSplitChunk size ov md model baseIndex text (some r)).map Chunk.text
        = ((pySplitOn r "---SPLIT---").map pyStrip).filter
            (fun s => !s.isEmpty && decide (wordCount s > 50))) ∧
    (((pySplitOn r "---SPLIT---").map pyStrip).filter
        (fun s => !s.isEmpty && decide (wordCount s > 50)) = [] →
      llmSplitChunk size ov md model baseIndex text (some r) = [mkChunk text md]) := by
  have htexts := llmSections_texts md model baseIndex (pySplitOn r "---SPLIT---") 0
  constructor
  · intro hne
    rw [llmSplitChunk]
    rw [if_neg (by
      intro hemp
      apply hne
      rw [← htexts]
      simp [List.isEmpty_iff.mp hemp])]
    exact htexts
  · intro hemp
    rw [llmSplitChunk]
    rw [if_pos (by
      rw [List.isEmpty_iff]
      have := htexts
      rw [hemp] at this
      exact List.map_eq_nil_iff.mp this)]

/-- Witness for C8 (amended) at the concrete two-segment response. -/
theorem claim8_llm_split_segments_witness :
    (((pySplitOn c8Resp "---SPLIT---").map pyStrip).filter
        (fun s => !s.isEmpty && decide (wordCount s > 50)) ≠ []) ∧
    (llmSplitChunk 800 150 [] "m" 0 "orig" (some c8Resp)).map Chunk.text
      = ((pySplitOn c8Resp "---SPLIT---").map pyStrip).filter
          (fun s => !s.isEmpty && decide (wordCount s > 50)) :=
  ⟨by decide, (claim8_llm_split_segments 800 150 [] "m" 0 "orig" c8Resp).1 (by decide)⟩

/-! ## C1 — namespace invalidation never matches the hashed keys -/

theorem hexChar_mem (n : Nat) : hexChar n ∈ hexTable := by
  have h : n % 16 < 16 := Nat.mod_lt _ (by norm_num)
  rw [hexChar, List.getD_eq_getElem _ _ (by simpa using h)]
  exact List.getElem_mem _

theorem wordToHex_chars (w : Nat) : ∀ c ∈ wordToHex w, c ∈ hexTable := by
  intro c hc
  simp only [wordToHex, List.mem_map] at hc
  obtain ⟨i, _, hi⟩ := hc
  rw [← hi]
  exact hexChar_mem _

theorem sha256Hex_chars (s : String) : ∀ c ∈ (sha256Hex s).data, c ∈ hexTable := by
  intro c hc
  have hc' : c ∈ hash8ToHex (sha256Words (utf8Encode s)) := hc
  simp only [hash8ToHex, List.mem_append] at hc'
  rcases hc' with (((((((h | h) | h) | h) | h) | h) | h) | h) <;> exact wordToHex_chars _ _ h

theorem containsSub_no_o (l : List Char) (h : 'o' ∉ l) :
    containsSubL l "doc1".data = false := by
  induction l with
  | nil => rfl
  | cons c rest ih =>
    have hco : 'o' ∉ rest := fun hm => h (List.mem_cons_of_mem _ hm)
    rw [containsSubL]
    rw [ih hco, Bool.or_false]
    cases rest with
    | nil => simp [show "doc1".data = ['d', 'o', 'c', '1'] from rfl, List.isPrefixOf]
    | cons r rest2 =>
      have hrne : ('o' == r) = false := by
        apply beq_eq_false_iff_ne.mpr
        intro heq
        exact h (by rw [heq]; exact List.mem_cons_of_mem _ (List.mem_cons_self ..))
      show (("doc1".data).isPrefixOf (c :: r :: rest2)) = false
      simp only [show "doc1".data = ['d', 'o', 'c', '1'] from rfl, List.isPrefixOf,
        Bool.and_eq_false_iff]
      right; left; exact hrne

theorem lookup_append_keyed {α : Type} (A : List (String × α)) (k : String) (v : α)
    (h : ∀ kv ∈ A, kv.1 ≠ k) : (A ++ [(k, v)]).lookup k = some v := by
  induction A with
  | nil => simp [List.lookup]
  | cons hd tl ih =>
    have hne : (k == hd.1) = false :=
      beq_eq_false_iff_ne.mpr (Ne.symm (h hd (List.mem_cons_self ..)))
    obtain ⟨k0, v0⟩ := hd
    rw [List.cons_append]
    show List.lookup k ((k0, v0) :: (tl ++ [(k, v)])) = some v
    rw [List.lookup]
    simp only [hne] at *
    exact ih (fun kv hkv => h kv (List.mem_cons_of_mem _ hkv))

theorem scanPat_misses_hashed_key (q : String) (kwargs : Kwargs) :
    scanPatMatch "doc1" (generateCacheKey q "doc1" kwargs) = false := by
  have hdata : (generateCacheKey q "doc1" kwargs).data
      = "chembot:qa:".data ++ (sha256Hex (cacheString q "doc1" kwargs)).data := by
    rw [generateCacheKey, String.data_append]
  rw [scanPatMatch, hdata]
  have hpre : ("chembot:qa:".data).isPrefixOf
      ("chembot:qa:".data ++ (sha256Hex (cacheString q "doc1" kwargs)).data) = true :=
    List.isPrefixOf_iff_prefix.mpr ⟨_, rfl⟩
  rw [hpre, Bool.true_and]
  have hlen : ("chembot:qa:".data).length = 11 := rfl
  have hdrop : ("chembot:qa:".data ++ (sha256Hex (cacheString q "doc1" kwargs)).data).drop 11
      = (sha256Hex (cacheString q "doc1" kwargs)).data := by
    rw [← hlen]; exact List.drop_left ..
  rw [hdrop]
  apply containsSub_no_o
  intro hmem
  have := sha256Hex_chars (cacheString q "doc1" kwargs) 'o' hmem
  revert this
  decide

/-- C1: the code's `invalidate_content_cache` does not remove cached
answers.  For the failing namespace `doc1` (and in fact for any
namespace with a character outside the hex alphabet), the SCAN pattern
`chembot:qa:*doc1*` cannot match any stored key — keys are
`chembot:qa:` followed by a SHA-256 hex digest, and `o` is not a hex
digit — so after `cache_answer` and `invalidate_content_cache("doc1")`,
`get_cached_answer` still returns the stored entry instead of the
claimed absence. -/
theorem claim1_invalidation_leaves_entry (db : RedisStore) (q : String)
    (kwargs : Kwargs) (ad : AnswerData) :
    getCachedAnswer
        (invalidateContentCache (cacheAnswer db q "doc1" ad kwargs) "doc1")
        q "doc1" kwargs
      = some ⟨{ ad with cached := true }, generateCacheKey q "doc1" kwargs⟩ := by
  rw [getCachedAnswer, cacheAnswer, invalidateContentCache, kvInsert]
  rw [List.filter_append]
  have hkeep : (List.filter (fun kv => !scanPatMatch "doc1" kv.1)
      [(generateCacheKey q "doc1" kwargs,
        (⟨{ ad with cached := true }, generateCacheKey q "doc1" kwargs⟩ : CacheRecord))])
      = [(generateCacheKey q "doc1" kwargs,
          (⟨{ ad with cached := true }, generateCacheKey q "doc1" kwargs⟩ : CacheRecord))] := by
    simp [List.filter_cons, scanPat_misses_hashed_key]
  rw [hkeep]
  apply lookup_append_keyed
  intro kv hkv
  have h1 := (List.mem_filter.mp hkv).1
  have h2 := (List.mem_filter.mp h1).2
  exact bne_iff_ne.mp h2

/-! ## C7 — overlap continuity in the heuristic strategy -/

theorem revPreFit_eq_take (ov : Nat) :
    ∀ (l : List String) (used : Nat), ∃ k, k ≤ l.length ∧ revPreFit ov used l = l.take k := by
  intro l
  induction l with
  | nil => intro used; exact ⟨0, by simp, rfl⟩
  | cons p rest ih =>
    intro used
    rw [revPreFit]
    split
    · obtain ⟨k, hk, he⟩ := ih (used + wordCount p)
      exact ⟨k + 1, by simp; omega, by rw [he]; rfl⟩
    · exact ⟨0, by simp, rfl⟩

theorem revPreFit_sum (ov : Nat) :
    ∀ (l : List String) (used : Nat),
      used + ((revPreFit ov used l).map wordCount).sum ≤ ov ∨ revPreFit ov used l = [] := by
  intro l
  induction l with
  | nil => intro used; right; rfl
  | cons p rest ih =>
    intro used
    rw [revPreFit]
    split
    · next hfit =>
      left
      rcases ih (used + wordCount p) with h | h
      · simp only [List.map_cons, List.sum_cons]; omega
      · simp [h, hfit]
    · right; rfl

theorem takeTailFit_drop (ov : Nat) (l : List String) :
    ∃ n, takeTailFit ov l = l.drop n ∧ ((l.drop n).map wordCount).sum ≤ ov := by
  obtain ⟨k, hk, he⟩ := revPreFit_eq_take ov l.reverse 0
  have hrev : (l.reverse.take k).reverse = l.drop (l.length - k) := by
    have := List.reverse_take (n := k) (l := l.reverse)
    rwa [List.reverse_reverse, List.length_reverse] at this
  refine ⟨l.length - k, ?_, ?_⟩
  · rw [takeTailFit, he, hrev]
  · have hsum := revPreFit_sum ov l.reverse 0
    rcases hsum with h | h
    · rw [← hrev, ← he]
      have : ((revPreFit ov 0 l.reverse).reverse.map wordCount).sum
          = ((revPreFit ov 0 l.reverse).map wordCount).sum := by
        rw [List.map_reverse, List.sum_reverse]
      omega
    · rw [← hrev, ← he, h]
      simp

theorem joinSepL_cons_cons (sep x y : List Char) (rest : List (List Char)) :
    joinSepL sep (x :: y :: rest) = x ++ sep ++ joinSepL sep (y :: rest) := rfl

theorem joinSepL_append (sep : List Char) :
    ∀ (A B : List (List Char)), A ≠ [] → B ≠ [] →
      joinSepL sep (A ++ B) = joinSepL sep A ++ sep ++ joinSepL sep B := by
  intro A
  induction A with
  | nil => intro B h; exact absurd rfl h
  | cons a A' ih =>
    intro B _ hB
    cases A' with
    | nil =>
      cases B with
      | nil => exact absurd rfl hB
      | cons b B' => simp [joinSepL_cons_cons, joinSepL]
    | cons a2 A'' =>
      have ihr := ih B (by simp) hB
      show joinSepL sep (a :: ((a2 :: A'') ++ B)) = _
      rw [show (a2 :: A'') ++ B = a2 :: (A'' ++ B) from rfl, joinSepL_cons_cons]
      rw [show a2 :: (A'' ++ B) = (a2 :: A'') ++ B from rfl, ihr, joinSepL_cons_cons]
      simp [List.append_assoc]

theorem joinSep_drop_suffix (sep : String) (l : List String) (n : Nat) :
    List.IsSuffix (joinSep sep (l.drop n)).data (joinSep sep l).data := by
  by_cases hd : l.drop n = []
  · rw [hd]; exact List.nil_suffix
  by_cases ht : l.take n = []
  · have heq : l.drop n = l := by
      conv_rhs => rw [← List.take_append_drop n l]
      rw [ht]; rfl
    rw [heq]
  · have hsplit : l = l.take n ++ l.drop n := (List.take_append_drop n l).symm
    have hJ : (joinSep sep l).data
        = joinSepL sep.data ((l.take n).map String.data) ++ sep.data
            ++ (joinSep sep (l.drop n)).data := by
      show joinSepL sep.data (l.map String.data) = _
      conv_lhs => rw [hsplit]
      rw [List.map_append]
      rw [joinSepL_append sep.data _ _ (by simpa using ht) (by simpa using hd)]
      rfl
    rw [hJ]
    exact ⟨_, rfl⟩

theorem joinSep_cons_isPre (sep : String) (o : String) (rest : List String) :
    List.IsPrefix o.data (joinSep sep (o :: rest)).data := by
  show List.IsPrefix o.data (joinSepL sep.data (o.data :: rest.map String.data))
  cases rest with
  | nil => exact List.prefix_refl _
  | cons b B =>
    rw [List.map_cons, joinSepL_cons_cons]
    exact ⟨sep.data ++ joinSepL sep.data (b.data :: B.map String.data), by simp [List.append_assoc]⟩

/-- The pairwise continuity relation: chunk `e`'s overlap tail starts
chunk `e'`'s text. -/
def overlapChainR (ov : Nat) (e e' : Chunk × Grp) : Prop :=
  List.IsPrefix (overlapTail ov e.2.sep e.2.elems).data e'.1.text.data

/-- A paragraph-path entry: its group was joined with `"\n\n"` into its
text. -/
def paraElem (e : Chunk × Grp) : Prop :=
  e.2.sep = "\n\n" ∧ e.1.text = joinSep "\n\n" e.2.elems

/-- The seeding invariant: the accumulator continues the last emitted
chunk's overlap window. -/
def seedOk (ov : Nat) (acc : List (Chunk × Grp)) (cur : List String) : Prop :=
  ∀ e ∈ acc.getLast?,
    ∃ rest, cur = (if (overlapTail ov "\n\n" e.2.elems).isEmpty then []
      else [overlapTail ov "\n\n" e.2.elems]) ++ rest

theorem emit_chain (ov : Nat) (acc : List (Chunk × Grp)) (md : Meta) (cur : List String)
    (hE : ∀ e ∈ acc, paraElem e) (hC : List.Chain' (overlapChainR ov) acc)
    (hS : seedOk ov acc cur) :
    (∀ e ∈ acc ++ [mkParaChunk md acc.length cur], paraElem e) ∧
    List.Chain' (overlapChainR ov) (acc ++ [mkParaChunk md acc.length cur]) := by
  constructor
  · intro e he
    rcases List.mem_append.mp he with h | h
    · exact hE e h
    · have : e = mkParaChunk md acc.length cur := by simpa using h
      subst this
      exact ⟨rfl, rfl⟩
  · rw [List.chain'_append]
    refine ⟨hC, List.chain'_singleton _, ?_⟩
    intro x hx y hy
    have hy' : mkParaChunk md acc.length cur = y := by simpa using hy
    subst hy'
    obtain ⟨rest, hrest⟩ := hS x hx
    rw [overlapChainR]
    have hsep := (hE x (List.mem_of_mem_getLast? hx)).1
    by_cases ho : (overlapTail ov x.2.sep x.2.elems).isEmpty
    · have hemp : overlapTail ov x.2.sep x.2.elems = "" := (String.isEmpty_iff _).mp ho
      rw [hemp]
      exact List.nil_prefix
    · rw [hsep] at ho ⊢
      rw [if_neg (by simpa using ho)] at hrest
      show List.IsPrefix _ (joinSep "\n\n" cur).data
      rw [hrest]
      exact joinSep_cons_isPre _ _ _

theorem heurAux_chain (size ov : Nat) (md : Meta) :
    ∀ paras acc cur cw,
      (∀ p ∈ paras, wordCount p ≤ size) →
      (∀ e ∈ acc, paraElem e) →
      List.Chain' (overlapChainR ov) acc →
      seedOk ov acc cur →
      (∀ e ∈ heuristicAux size ov md paras acc cur cw, paraElem e) ∧
      List.Chain' (overlapChainR ov) (heuristicAux size ov md paras acc cur cw) := by
  intro paras
  induction paras with
  | nil =>
    intro acc cur cw _ hE hC hS
    rw [heuristicAux]
    split
    · exact ⟨hE, hC⟩
    · exact emit_chain ov acc md cur hE hC hS
  | cons p rest ih =>
    intro acc cur cw hp hE hC hS
    have hpw : wordCount p ≤ size := hp p (List.mem_cons_self ..)
    have hp' : ∀ q ∈ rest, wordCount q ≤ size :=
      fun q hq => hp q (List.mem_cons_of_mem _ hq)
    rw [heuristicAux]
    dsimp only
    by_cases hover : cw + wordCount p > size
    · rw [if_pos hover]
      have hbig : ¬ (wordCount p > size) := by omega
      by_cases hcur : cur.isEmpty
      · simp only [hcur, if_true, if_neg hbig]
        apply ih _ _ _ hp' hE hC
        intro e he
        obtain ⟨r0, hr0⟩ := hS e he
        exact ⟨r0 ++ [p], by rw [hr0]; simp⟩
      · simp only [hcur, if_false]
        obtain ⟨hE', hC'⟩ := emit_chain ov acc md cur hE hC hS
        have hS' : ∀ cur1, (cur1 = if (overlapTail ov "\n\n" cur).isEmpty then []
              else [overlapTail ov "\n\n" cur]) →
            seedOk ov (acc ++ [mkParaChunk md acc.length cur]) (cur1 ++ [p]) := by
          intro cur1 hcur1 e he
          rw [List.getLast?_concat] at he
          have he' : mkParaChunk md acc.length cur = e := by simpa using he
          subst he'
          exact ⟨[p], by rw [hcur1]; rfl⟩
        by_cases ho : (overlapTail ov "\n\n" cur).isEmpty
        · simp only [ho, if_true, if_neg hbig]
          exact ih _ _ _ hp' hE' hC' (hS' [] (by rw [if_pos ho]))
        · simp only [ho, if_false, if_neg hbig]
          exact ih _ _ _ hp' hE' hC'
            (hS' [overlapTail ov "\n\n" cur] (by rw [if_neg ho]))
    · rw [if_neg hover]
      apply ih _ _ _ hp' hE hC
      intro e he
      obtain ⟨r0, hr0⟩ := hS e he
      exact ⟨r0 ++ [p], by rw [hr0]; simp⟩

/-- C7 counterexample: with `chunk_size = 3`, `overlap = 2` on a
document whose second paragraph exceeds the chunk size, the overlap
tail of chunk 0 (`"a b"`) does not reappear as the head of chunk 1
(`"c. d. e."`, produced by the sentence-split path). -/
theorem claim7_counterexample :
    ¬ (∀ i, i + 1 < (heuristicChunkG 3 2 [] c7Text).length →
        List.IsPrefix
          (overlapTail 2 ((heuristicChunkG 3 2 [] c7Text).getD i cgDflt).2.sep
            ((heuristicChunkG 3 2 [] c7Text).getD i cgDflt).2.elems).data
          (((heuristicChunkG 3 2 [] c7Text).getD (i + 1) cgDflt).1.text.data)) :=
  fun h => absurd (h 0 (by decide)) (by decide)

/-- C7 (amended): when every paragraph of the input fits within
`chunk_size` (so the sentence-split path is never taken) and
`overlap > 0`, the overlap tail of every non-final chunk — the trailing
paragraphs of its accumulated group totaling at most `overlap` words, a
suffix of the chunk's own text — reappears as the head of the next
chunk.  With an oversized paragraph, the sentence-split chunks are
interleaved without receiving the pending overlap window, and the
property fails (see the counterexample). -/
theorem claim7_overlap_continuity (size ov : Nat) (md : Meta) (text : String)
    (_hov : 0 < ov)
    (hsmall : ∀ p ∈ splitParagraphs text, wordCount p ≤ size) :
    ∀ i, i + 1 < (heuristicChunkG size ov md text).length →
      List.IsPrefix
        (overlapTail ov ((heuristicChunkG size ov md text).getD i cgDflt).2.sep
          ((heuristicChunkG size ov md text).getD i cgDflt).2.elems).data
        (((heuristicChunkG size ov md text).getD (i + 1) cgDflt).1.text.data) ∧
      List.IsSuffix
        (overlapTail ov ((heuristicChunkG size ov md text).getD i cgDflt).2.sep
          ((heuristicChunkG size ov md text).getD i cgDflt).2.elems).data
        (((heuristicChunkG size ov md text).getD i cgDflt).1.text.data) ∧
      ∃ n, overlapTail ov ((heuristicChunkG size ov md text).getD i cgDflt).2.sep
            ((heuristicChunkG size ov md text).getD i cgDflt).2.elems
          = joinSep "\n\n" (((heuristicChunkG size ov md text).getD i cgDflt).2.elems.drop n) ∧
          ((((heuristicChunkG size ov md text).getD i cgDflt).2.elems.drop n).map
            wordCount).sum ≤ ov := by
  have hchain := heurAux_chain size ov md (splitParagraphs text) [] [] 0 hsmall
    (by intro e he; simp at he) (List.chain'_nil) (by intro e he; simp at he)
  have hE : ∀ e ∈ heuristicChunkG size ov md text, paraElem e := hchain.1
  have hC : List.Chain' (overlapChainR ov) (heuristicChunkG size ov md text) := hchain.2
  intro i hi
  have hiL : i < (heuristicChunkG size ov md text).length := by omega
  have hi1 : i + 1 < (heuristicChunkG size ov md text).length := hi
  have hmemi : (heuristicChunkG size ov md text).getD i cgDflt
      ∈ heuristicChunkG size ov md text := by
    rw [List.getD_eq_getElem _ _ hiL]; exact List.getElem_mem _
  have hEi := hE _ hmemi
  refine ⟨?_, ?_, ?_⟩
  · have hstep := List.chain'_iff_get.mp hC i (by omega)
    rw [overlapChainR] at hstep
    rw [List.getD_eq_getElem _ _ hiL, List.getD_eq_getElem _ _ hi1]
    exact hstep
  · rw [hEi.1, hEi.2]
    obtain ⟨n, hn, _⟩ :=
      takeTailFit_drop ov (((heuristicChunkG size ov md text).getD i cgDflt).2.elems)
    rw [overlapTail]
    split
    · exact List.nil_suffix
    · rw [hn]
      exact joinSep_drop_suffix _ _ _
  · rw [hEi.1]
    rw [overlapTail]
    split
    · refine ⟨((heuristicChunkG size ov md text).getD i cgDflt).2.elems.length, ?_, by simp⟩
      rw [List.drop_length]
      rfl
    · obtain ⟨n, hn, hs⟩ :=
        takeTailFit_drop ov (((heuristicChunkG size ov md text).getD i cgDflt).2.elems)
      exact ⟨n, by rw [hn], hs⟩

/-! ## C6 — cache-key derivation

Supporting facts: injectivity of the decimal and JSON serializations
(via explicit left inverses), and the finiteness of the SHA-256 digest
space. -/

theorem hexChar_toNat_digit : ∀ m, m < 10 → (hexChar m).toNat = 48 + m := by decide

theorem hexChar_digit_mem : ∀ m, m < 10 → hexChar m ∈ "0123456789".data := by decide

theorem decValue_append_one (l : List Char) (c : Char) :
    decValue (l ++ [c]) = 10 * decValue l + (c.toNat - 48) := by
  rw [decValue, List.foldl_append]
  rfl

theorem natDigitsAux_val : ∀ fuel n, n < fuel → decValue ((natDigitsAux fuel n).reverse) = n := by
  intro fuel
  induction fuel with
  | zero => intro n h; omega
  | succ f ih =>
    intro n h
    rw [natDigitsAux]
    by_cases h10 : n < 10
    · rw [if_pos h10]
      show decValue [hexChar n] = n
      show 10 * 0 + ((hexChar n).toNat - 48) = n
      rw [hexChar_toNat_digit n h10]
      omega
    · rw [if_neg h10]
      rw [List.reverse_cons, decValue_append_one]
      have hdiv : n / 10 < f := by
        have := Nat.div_lt_self (by omega : 0 < n) (by norm_num : 1 < 10)
        omega
      rw [ih (n / 10) hdiv]
      have hmod : n % 10 < 10 := Nat.mod_lt _ (by norm_num)
      rw [hexChar_toNat_digit _ hmod]
      omega

theorem natDec_inj {a b : Nat} (h : natDec a = natDec b) : a = b := by
  have ha := natDigitsAux_val (a + 1) a (by omega)
  have hb := natDigitsAux_val (b + 1) b (by omega)
  rw [← ha, ← hb, ← natDec, ← natDec, h]

theorem natDigitsAux_digits : ∀ fuel n, ∀ c ∈ natDigitsAux fuel n, c ∈ "0123456789".data := by
  intro fuel
  induction fuel with
  | zero => intro n c h; simp [natDigitsAux] at h
  | succ f ih =>
    intro n c h
    rw [natDigitsAux] at h
    by_cases h10 : n < 10
    · rw [if_pos h10] at h
      have : c = hexChar n := by simpa using h
      subst this
      exact hexChar_digit_mem n h10
    · rw [if_neg h10] at h
      rcases List.mem_cons.mp h with h1 | h1
      · subst h1; exact hexChar_digit_mem _ (Nat.mod_lt _ (by norm_num))
      · exact ih _ _ h1

theorem natDec_digits (n : Nat) : ∀ c ∈ natDec n, c ∈ "0123456789".data := by
  intro c h
  exact natDigitsAux_digits _ _ c (List.mem_reverse.mp h)

theorem natDec_ne_nil (n : Nat) : natDec n ≠ [] := by
  rw [natDec, natDigitsAux]
  by_cases h10 : n < 10
  · rw [if_pos h10]; simp
  · rw [if_neg h10]; simp

theorem intDec_inj {a b : Int} (h : intDec a = intDec b) : a = b := by
  cases a with
  | ofNat a0 =>
    cases b with
    | ofNat b0 => rw [intDec, intDec] at h; rw [natDec_inj h]
    | negSucc b0 =>
      exfalso
      rw [intDec, intDec] at h
      obtain ⟨hd, tl, hcons⟩ := List.exists_cons_of_ne_nil (natDec_ne_nil a0)
      rw [hcons] at h
      have hmem : hd ∈ natDec a0 := by rw [hcons]; exact List.mem_cons_self ..
      have := natDec_digits a0 hd hmem
      have hh : hd = '-' := by injection h
      rw [hh] at this
      revert this
      decide
  | negSucc a0 =>
    cases b with
    | ofNat b0 =>
      exfalso
      rw [intDec, intDec] at h
      obtain ⟨hd, tl, hcons⟩ := List.exists_cons_of_ne_nil (natDec_ne_nil b0)
      rw [hcons] at h
      have hmem : hd ∈ natDec b0 := by rw [hcons]; exact List.mem_cons_self ..
      have := natDec_digits b0 hd hmem
      have hh : '-' = hd := by injection h
      rw [← hh] at this
      revert this
      decide
    | negSucc b0 =>
      rw [intDec, intDec] at h
      have h2 : natDec (a0 + 1) = natDec (b0 + 1) := by injection h
      have h3 := natDec_inj h2
      have h4 : a0 = b0 := by omega
      rw [h4]

theorem hexVal_hexChar : ∀ m, m < 16 → hexVal (hexChar m) = m := by decide

theorem hex4_val (n : Nat) (h : n < 0x10000) :
    hexVal (hexChar ((n >>> 12) % 16)) * 4096 + hexVal (hexChar ((n >>> 8) % 16)) * 256 +
      hexVal (hexChar ((n >>> 4) % 16)) * 16 + hexVal (hexChar (n % 16)) = n := by
  rw [hexVal_hexChar _ (Nat.mod_lt _ (by norm_num)), hexVal_hexChar _ (Nat.mod_lt _ (by norm_num)),
    hexVal_hexChar _ (Nat.mod_lt _ (by norm_num)), hexVal_hexChar _ (Nat.mod_lt _ (by norm_num))]
  rw [Nat.shiftRight_eq_div_pow, Nat.shiftRight_eq_div_pow, Nat.shiftRight_eq_div_pow]
  omega

theorem decodeEsc_u (h1 h2 h3 h4 : Char) (r : List Char) :
    decodeEsc ('\\' :: 'u' :: h1 :: h2 :: h3 :: h4 :: r) =
    (if 0xD800 ≤ hexVal h1 * 4096 + hexVal h2 * 256 + hexVal h3 * 16 + hexVal h4 ∧
        hexVal h1 * 4096 + hexVal h2 * 256 + hexVal h3 * 16 + hexVal h4 ≤ 0xDBFF then
      decodePair (hexVal h1 * 4096 + hexVal h2 * 256 + hexVal h3 * 16 + hexVal h4) r
    else some (Char.ofNat (hexVal h1 * 4096 + hexVal h2 * 256 + hexVal h3 * 16 + hexVal h4), r)) :=
  rfl

theorem decodePair_eq (n : Nat) (g1 g2 g3 g4 : Char) (r : List Char) :
    decodePair n ('\\' :: 'u' :: g1 :: g2 :: g3 :: g4 :: r) =
      some (Char.ofNat (0x10000 + (n - 0xD800) * 1024 +
        (hexVal g1 * 4096 + hexVal g2 * 256 + hexVal g3 * 16 + hexVal g4 - 0xDC00)), r) :=
  rfl

theorem decodeEsc_plain (c : Char) (r : List Char) (h : ¬ c = '\\') :
    decodeEsc (c :: r) = some (c, r) := by
  rw [decodeEsc.eq_def]
  split
  all_goals first | rfl | simp_all

theorem decodeEsc_spec (c : Char) (r : List Char) :
    decodeEsc (jsonEscChar c ++ r) = some (c, r) := by
  have hvalid : c.toNat < 0xd800 ∨ (0xdfff < c.toNat ∧ c.toNat < 0x110000) := c.valid
  rw [jsonEscChar]
  by_cases h1 : c = '"'
  · subst h1; rfl
  rw [if_neg h1]
  by_cases h2 : c = '\\'
  · subst h2; rfl
  rw [if_neg h2]
  by_cases h3 : c = '\n'
  · subst h3; rfl
  rw [if_neg h3]
  by_cases h4 : c = '\t'
  · subst h4; rfl
  rw [if_neg h4]
  by_cases h5 : c = '\r'
  · subst h5; rfl
  rw [if_neg h5]
  by_cases h6 : c = '\x08'
  · subst h6; rfl
  rw [if_neg h6]
  by_cases h7 : c = '\x0c'
  · subst h7; rfl
  rw [if_neg h7]
  by_cases h8 : c.toNat < 0x20
  · rw [if_pos h8, hex4]
    simp only [List.cons_append, List.nil_append]
    rw [decodeEsc_u, hex4_val _ (by omega)]
    rw [if_neg (by omega)]
    rw [Char.ofNat_toNat]
  rw [if_neg h8]
  by_cases h9 : c.toNat < 0x7f
  · rw [if_pos h9]
    simp only [List.cons_append, List.nil_append]
    exact decodeEsc_plain c r h2
  rw [if_neg h9]
  by_cases h10 : c.toNat < 0x10000
  · rw [if_pos h10, hex4]
    simp only [List.cons_append, List.nil_append]
    rw [decodeEsc_u, hex4_val _ h10]
    rw [if_neg (by omega)]
    rw [Char.ofNat_toNat]
  · rw [if_neg h10]
    have hlt : c.toNat < 0x110000 := by omega
    have hdiv : (c.toNat - 0x10000) / 1024 < 1024 := by omega
    have hshift : (c.toNat - 0x10000) >>> 10 = (c.toNat - 0x10000) / 1024 :=
      Nat.shiftRight_eq_div_pow ..
    have hhiBound : 0xD800 + ((c.toNat - 0x10000) >>> 10) < 0x10000 := by
      rw [hshift]; omega
    have hand := Nat.and_pow_two_sub_one_eq_mod (c.toNat - 0x10000) 10
    have h1024 : (c.toNat - 0x10000) % 1024 < 1024 := Nat.mod_lt _ (by norm_num)
    have hloBound : 0xDC00 + ((c.toNat - 0x10000) &&& 0x3FF) < 0x10000 := by
      have h3ff : (0x3FF : Nat) = 2 ^ 10 - 1 := by norm_num
      rw [h3ff, hand]
      omega
    rw [hex4, hex4]
    simp only [List.cons_append, List.nil_append, List.append_assoc]
    rw [decodeEsc_u, hex4_val _ hhiBound]
    rw [if_pos (by rw [hshift]; omega)]
    rw [decodePair_eq, hex4_val _ hloBound]
    have hchar : 0x10000 + (0xD800 + ((c.toNat - 0x10000) >>> 10) - 0xD800) * 1024 +
        (0xDC00 + ((c.toNat - 0x10000) &&& 0x3FF) - 0xDC00) = c.toNat := by
      have h3ff : (0x3FF : Nat) = 2 ^ 10 - 1 := by norm_num
      rw [hshift, h3ff, hand]
      omega
    rw [hchar, Char.ofNat_toNat]

theorem jsonEscChar_ne_nil (c : Char) : jsonEscChar c ≠ [] := by
  rw [jsonEscChar]
  repeat' split
  all_goals simp [hex4]

theorem escBody_inj : ∀ xs ys : List Char, escBody xs = escBody ys → xs = ys := by
  intro xs
  induction xs with
  | nil =>
    intro ys h
    cases ys with
    | nil => rfl
    | cons y ys' =>
      exfalso
      rw [escBody, escBody] at h
      simp only [List.flatMap_nil, List.flatMap_cons] at h
      rcases List.append_eq_nil.mp h.symm with ⟨h1, _⟩
      exact jsonEscChar_ne_nil y h1
  | cons x xs' ih =>
    intro ys h
    cases ys with
    | nil =>
      exfalso
      rw [escBody, escBody] at h
      simp only [List.flatMap_nil, List.flatMap_cons] at h
      rcases List.append_eq_nil.mp h with ⟨h1, _⟩
      exact jsonEscChar_ne_nil x h1
    | cons y ys' =>
      rw [escBody, escBody] at h
      simp only [List.flatMap_cons] at h
      have hx := decodeEsc_spec x (escBody xs')
      have hy := decodeEsc_spec y (escBody ys')
      rw [escBody] at hx hy
      rw [h] at hx
      rw [hx] at hy
      injection hy with hy'
      have hxy : x = y := congrArg Prod.fst hy'
      have hrest : escBody xs' = escBody ys' := congrArg Prod.snd hy'
      rw [hxy, ih ys' hrest]

theorem jsonStr_inj {s t : String} (h : jsonStr s = jsonStr t) : s = t := by
  rw [jsonStr, jsonStr] at h
  injection h with _ h2
  have := List.append_cancel_right h2
  exact String.ext (escBody_inj _ _ this)

theorem intDec_head_digit (v : Int) : ∀ hd tl, intDec v = hd :: tl →
    hd ∈ "0123456789".data ∨ hd = '-' := by
  intro hd tl h
  cases v with
  | ofNat n =>
    rw [intDec] at h
    left
    exact natDec_digits n hd (by rw [h]; exact List.mem_cons_self ..)
  | negSucc n =>
    rw [intDec] at h
    right
    injection h with h1
    exact h1.symm

theorem jsonVal_inj {v w : PyVal} (h : jsonVal v = jsonVal w) : v = w := by
  cases v with
  | i a =>
    cases w with
    | i b => rw [jsonVal, jsonVal] at h; rw [intDec_inj h]
    | s b =>
      exfalso
      rw [jsonVal, jsonVal, jsonStr] at h
      obtain ⟨hd, tl, hcons⟩ := List.exists_cons_of_ne_nil (natDec_ne_nil 0)
      cases hi : intDec a with
      | nil =>
        cases a with
        | ofNat n => exact natDec_ne_nil n hi
        | negSucc n => rw [intDec] at hi; simp at hi
      | cons h0 t0 =>
        rw [hi] at h
        have hh : h0 = '"' := by injection h
        rcases intDec_head_digit a h0 t0 hi with hm | hm
        · rw [hh] at hm; revert hm; decide
        · rw [hh] at hm; revert hm; decide
  | s a =>
    cases w with
    | i b =>
      exfalso
      rw [jsonVal, jsonVal, jsonStr] at h
      cases hi : intDec b with
      | nil =>
        cases b with
        | ofNat n => exact natDec_ne_nil n hi
        | negSucc n => rw [intDec] at hi; simp at hi
      | cons h0 t0 =>
        rw [hi] at h
        have hh : '"' = h0 := by injection h
        rcases intDec_head_digit b h0 t0 hi with hm | hm
        · rw [← hh] at hm; revert hm; decide
        · rw [← hh] at hm; revert hm; decide
    | s b => rw [jsonVal, jsonVal] at h; rw [jsonStr_inj h]

theorem joinSepL_pos_inj (sep : List Char) :
    ∀ (A B : List (List Char)) (x1 x2 : List Char),
      joinSepL sep (A ++ x1 :: B) = joinSepL sep (A ++ x2 :: B) → x1 = x2 := by
  intro A
  induction A with
  | nil =>
    intro B x1 x2 h
    cases B with
    | nil => exact h
    | cons b B' =>
      rw [List.nil_append, List.nil_append, joinSepL_cons_cons, joinSepL_cons_cons] at h
      exact List.append_cancel_right (List.append_cancel_right h)
  | cons a A' ih =>
    intro B x1 x2 h
    cases A' with
    | nil =>
      rw [List.cons_append, List.cons_append, List.nil_append, List.nil_append,
        joinSepL_cons_cons, joinSepL_cons_cons] at h
      exact ih B x1 x2 (List.append_cancel_left h)
    | cons a2 A'' =>
      rw [List.cons_append, List.cons_append, List.cons_append, List.cons_append,
        joinSepL_cons_cons, joinSepL_cons_cons] at h
      have h2 := List.append_cancel_left h
      exact ih B x1 x2 (by simpa using h2)

theorem jsonItem_val_inj (k : String) (v1 v2 : PyVal)
    (h : jsonItem (k, v1) = jsonItem (k, v2)) : v1 = v2 := by
  rw [jsonItem, jsonItem] at h
  injection h with hhead h'
  have h2 := List.append_cancel_right h'
  have h3 := List.append_cancel_left h2
  injection h3 with _ h4
  injection h4 with _ h5
  exact jsonVal_inj h5

theorem jsonKwargs_pos_inj (pre post : Kwargs) (k : String) (v1 v2 : PyVal)
    (h : jsonKwargs (pre ++ (k, v1) :: post) = jsonKwargs (pre ++ (k, v2) :: post)) :
    v1 = v2 := by
  rw [jsonKwargs, jsonKwargs] at h
  injection h with hhead h'
  have h2 := List.append_cancel_right h'
  rw [List.map_append, List.map_append, List.map_cons, List.map_cons] at h2
  exact jsonItem_val_inj k v1 v2 (joinSepL_pos_inj _ _ _ _ _ h2)

theorem cacheString_ns_inj (q ns1 ns2 : String) (kw : Kwargs)
    (h : cacheString q ns1 kw = cacheString q ns2 kw) : ns1 = ns2 := by
  rw [cacheString, cacheString] at h
  by_cases hkw : kw.isEmpty
  · rw [if_pos hkw, if_pos hkw] at h
    have hd := congrArg String.data h
    simp only [String.data_append] at hd
    exact String.ext (List.append_cancel_right (List.append_cancel_right hd))
  · rw [if_neg hkw, if_neg hkw] at h
    have hd := congrArg String.data h
    simp only [String.data_append] at hd
    have h2 := List.append_cancel_right hd
    exact String.ext (List.append_cancel_right (List.append_cancel_right
      (List.append_cancel_right h2)))

theorem cacheString_val_inj (q ns : String) (pre post : Kwargs) (k : String) (v1 v2 : PyVal)
    (hs1 : sortKwargs (pre ++ (k, v1) :: post) = pre ++ (k, v1) :: post)
    (hs2 : sortKwargs (pre ++ (k, v2) :: post) = pre ++ (k, v2) :: post)
    (h : cacheString q ns (pre ++ (k, v1) :: post) = cacheString q ns (pre ++ (k, v2) :: post)) :
    v1 = v2 := by
  rw [cacheString, cacheString] at h
  rw [if_neg (by simp), if_neg (by simp)] at h
  rw [hs1, hs2] at h
  have hd := congrArg String.data h
  simp only [String.data_append] at hd
  have h2 := List.append_cancel_left hd
  exact jsonKwargs_pos_inj pre post k v1 v2 h2

theorem sha256Hex_length (s : String) : (sha256Hex s).data.length = 64 := by
  show (hash8ToHex (sha256Words (utf8Encode s))).length = 64
  rw [hash8ToHex]
  simp [wordToHex]

theorem hexVal_lt_of_mem : ∀ c ∈ hexTable, hexVal c < 16 := by decide

theorem hexChar_hexVal_mem : ∀ c ∈ hexTable, hexChar (hexVal c) = c := by decide

/-- C6 counterexample: "changing the namespace yields a different key"
cannot hold universally for the SHA-256-based key — the key space is
finite (64 hex characters) while namespaces are unbounded, so the key
function cannot be injective in the namespace. -/
theorem claim6_counterexample :
    ¬ (∀ (q : String) (kwargs : Kwargs) (ns1 ns2 : String), ns1 ≠ ns2 →
        generateCacheKey q ns1 kwargs ≠ generateCacheKey q ns2 kwargs) := by
  intro h
  have hf : Function.Injective
      (fun m : ℕ => sha256Hex (cacheString "q" (String.mk (List.replicate m 'a')) [])) := by
    intro m1 m2 heq
    by_contra hne
    have hns : String.mk (List.replicate m1 'a') ≠ String.mk (List.replicate m2 'a') := by
      intro he
      have hlen := congrArg (fun s : String => s.data.length) he
      simp at hlen
      exact hne hlen
    apply h "q" [] _ _ hns
    rw [generateCacheKey, generateCacheKey]
    simp only at heq
    rw [heq]
  have hg : Function.Injective (fun m : ℕ => fun i : Fin 64 =>
      (⟨hexVal ((sha256Hex (cacheString "q" (String.mk (List.replicate m 'a')) [])).data.getD
          i '0') % 16, Nat.mod_lt _ (by norm_num)⟩ : Fin 16)) := by
    intro m1 m2 heq
    apply hf
    apply String.ext
    apply List.ext_getElem
    · rw [sha256Hex_length, sha256Hex_length]
    · intro i hi1 hi2
      have hi64 : i < 64 := by rw [sha256Hex_length] at hi1; exact hi1
      have hfun := congrFun heq ⟨i, hi64⟩
      simp only [Fin.mk.injEq] at hfun
      have hc1 : (sha256Hex (cacheString "q" (String.mk (List.replicate m1 'a')) [])).data.getD
          i '0' ∈ hexTable := by
        rw [List.getD_eq_getElem _ _ hi1]
        exact sha256Hex_chars _ _ (List.getElem_mem _)
      have hc2 : (sha256Hex (cacheString "q" (String.mk (List.replicate m2 'a')) [])).data.getD
          i '0' ∈ hexTable := by
        rw [List.getD_eq_getElem _ _ hi2]
        exact sha256Hex_chars _ _ (List.getElem_mem _)
      have hv1 := hexVal_lt_of_mem _ hc1
      have hv2 := hexVal_lt_of_mem _ hc2
      rw [Nat.mod_eq_of_lt hv1, Nat.mod_eq_of_lt hv2] at hfun
      have hcc : (sha256Hex (cacheString "q" (String.mk (List.replicate m1 'a')) [])).data.getD
            i '0'
          = (sha256Hex (cacheString "q" (String.mk (List.replicate m2 'a')) [])).data.getD
            i '0' := by
        rw [← hexChar_hexVal_mem _ hc1, ← hexChar_hexVal_mem _ hc2, hfun]
      rw [List.getD_eq_getElem _ _ hi1, List.getD_eq_getElem _ _ hi2] at hcc
      exact hcc
  haveI : Finite ℕ := Finite.of_injective _ hg
  exact not_finite ℕ

/-- C6 (amended): the cache key is a pure function of the namespace, the
normalized (lowercased, stripped) question, and the sorted extra
parameters — questions differing only in case and surrounding
whitespace give identical keys.  Changing the namespace, or changing
the value of any extra parameter (at its place in the sorted parameter
list), always changes the pre-hash cache string — the input to SHA-256
— and at the spec's concrete inputs the hashed keys themselves differ;
universal distinctness of the 256-bit hashed keys is unattainable (see
the counterexample). -/
theorem claim6_cache_key :
    (∀ q1 q2 ns kw, pyStrip (pyLower q1) = pyStrip (pyLower q2) →
      generateCacheKey q1 ns kw = generateCacheKey q2 ns kw) ∧
    (∀ q ns1 ns2 kw, ns1 ≠ ns2 → cacheString q ns1 kw ≠ cacheString q ns2 kw) ∧
    (∀ q ns (pre post : Kwargs) k v1 v2, v1 ≠ v2 →
      sortKwargs (pre ++ (k, v1) :: post) = pre ++ (k, v1) :: post →
      sortKwargs (pre ++ (k, v2) :: post) = pre ++ (k, v2) :: post →
      cacheString q ns (pre ++ (k, v1) :: post) ≠ cacheString q ns (pre ++ (k, v2) :: post)) ∧
    generateCacheKey "What is X?" "doc1" [] ≠ generateCacheKey "What is X?" "doc2" [] := by
  refine ⟨?_, ?_, ?_, ?_⟩
  · intro q1 q2 ns kw hnorm
    rw [generateCacheKey, generateCacheKey, cacheString, cacheString, hnorm]
  · intro q ns1 ns2 kw hne heq
    exact hne (cacheString_ns_inj q ns1 ns2 kw heq)
  · intro q ns pre post k v1 v2 hne hs1 hs2 heq
    exact hne (cacheString_val_inj q ns pre post k v1 v2 hs1 hs2 heq)
  · decide

/-- Witness for C6 (amended) at concrete inputs: the spec's
case/whitespace pair gives equal keys; `doc1` vs `doc2` and `top_k` 5
vs 7 give different cache strings. -/
theorem claim6_cache_key_witness :
    (pyStrip (pyLower " what is x? ") = pyStrip (pyLower "What is X?") ∧
      generateCacheKey " what is x? " "doc1" [] = generateCacheKey "What is X?" "doc1" []) ∧
    (("doc1" : String) ≠ "doc2" ∧
      cacheString "q" "doc1" [] ≠ cacheString "q" "doc2" []) ∧
    ((PyVal.i 5 : PyVal) ≠ PyVal.i 7 ∧
      sortKwargs ([("model", PyVal.s "m")] ++ ("top_k", PyVal.i 5) :: [])
        = [("model", PyVal.s "m")] ++ ("top_k", PyVal.i 5) :: [] ∧
      sortKwargs ([("model", PyVal.s "m")] ++ ("top_k", PyVal.i 7) :: [])
        = [("model", PyVal.s "m")] ++ ("top_k", PyVal.i 7) :: [] ∧
      cacheString "q" "doc1" ([("model", PyVal.s "m")] ++ ("top_k", PyVal.i 5) :: [])
        ≠ cacheString "q" "doc1" ([("model", PyVal.s "m")] ++ ("top_k", PyVal.i 7) :: [])) :=
  ⟨⟨by decide, claim6_cache_key.1 " what is x? " "What is X?" "doc1" [] (by decide)⟩,
   ⟨by decide, claim6_cache_key.2.1 "q" "doc1" "doc2" [] (by decide)⟩,
   ⟨by decide, by decide, by decide,
    claim6_cache_key.2.2.1 "q" "doc1" [("model", PyVal.s "m")] [] "top_k"
      (PyVal.i 5) (PyVal.i 7) (by decide) (by decide) (by decide)⟩⟩

/-! ## C10 — the streaming ask path on failure -/

theorem join_append_one (l : List String) (s : String) :
    String.join (l ++ [s]) = String.join l ++ s := by
  rw [String.join, String.join, List.foldl_append]
  rfl

theorem join_one (s : String) : String.join [s] = s := by
  apply String.ext
  show ("" ++ s).data = s.data
  rw [String.data_append]
  rfl

theorem join_append_one_ne_empty (l : List String) (s : String) (h : s ≠ "") :
    String.join (l ++ [s]) ≠ "" := by
  rw [join_append_one]
  intro he
  have := congrArg String.data he
  rw [String.data_append] at this
  rcases List.append_eq_nil.mp this with ⟨_, h2⟩
  exact h (String.ext h2)

theorem getCachedAnswer_cacheAnswer (db : RedisStore) (q cid : String)
    (ad : AnswerData) (kw : Kwargs) :
    getCachedAnswer (cacheAnswer db q cid ad kw) q cid kw
      = some ⟨{ ad with cached := true }, generateCacheKey q cid kw⟩ :=
  lookup_insert_self db (generateCacheKey q cid kw) _

theorem lastTurn_addTurn (convs : Conversations) (mh : Nat) (cid uid q a : String) :
    lastTurn (addTurn convs mh cid uid q a) cid uid = some ⟨q, a⟩ := by
  rw [lastTurn, addTurn]
  rw [lookup_insert_self]
  simp only [Option.getD_some]
  set cur := (convs.lookup (convKey cid uid)).getD [] with hcur
  by_cases hlen : (cur ++ [(⟨q, a⟩ : Turn)]).length > mh
  · rw [if_pos hlen, lastSlice]
    by_cases hmh : mh == 0
    · rw [if_pos hmh]
      exact List.getLast?_concat _
    · rw [if_neg hmh]
      have hne : (mh == 0) = false := by simpa using hmh
      have hlt : (cur ++ [(⟨q, a⟩ : Turn)]).length - mh < (cur ++ [(⟨q, a⟩ : Turn)]).length := by
        have : 0 < mh := by
          rcases Nat.eq_zero_or_pos mh with h0 | h0
          · rw [h0] at hne; simp at hne
          · exact h0
        simp only [List.length_append, List.length_cons, List.length_nil] at *
        omega
      rw [List.getLast?_drop, if_neg (by omega)]
      exact List.getLast?_concat _
  · rw [if_neg hlen]
    exact List.getLast?_concat _

theorem askQuestionStream_gen (st : EngineState) (model : String) (mh : Nat)
    (q cid uid : String) (cls : Classification) (env : StreamEnv)
    (hmiss : getCachedAnswer st.cache q cid (streamKwargs model) = none)
    (hq : cls.is_question = true) (hrel : cls.is_relevant = true)
    (hfne : (String.join (answerQuestionStream env) == "") = false) :
    askQuestionStream st model mh q cid uid true cls env
      = (answerQuestionStream env,
         ⟨cacheAnswer st.cache q cid
            (streamCacheData (String.join (answerQuestionStream env)) model
              env.responseTimeMs) (streamKwargs model),
          addTurn st.conv mh cid uid q (String.join (answerQuestionStream env))⟩) := by
  unfold askQuestionStream
  simp only [if_true, hmiss, hq, hrel, Bool.not_true, Bool.false_eq_true, if_false, hfne,
    Bool.not_false, Bool.and_self, Bool.true_and, if_true]

/-- C10: in `ask_question_stream` with caching on, a cache miss and a
classification that passes the gate, when retrieval returns no chunks
or the streamed generation fails after a prefix of increments, the
stream ends with the canned message and completes; afterwards the
accumulated answer — the canned message itself when nothing preceded
it — is stored in the answer cache under the question's key and
appended to the conversation window as the turn's answer. -/
theorem claim10_stream_failure_is_cached (st : EngineState) (model : String) (mh : Nat)
    (q cid uid : String) (cls : Classification) (env : StreamEnv)
    (hmiss : getCachedAnswer st.cache q cid (streamKwargs model) = none)
    (hq : cls.is_question = true) (hrel : cls.is_relevant = true) :
    (env.retrieval = .ok [] →
      (askQuestionStream st model mh q cid uid true cls env).1 = [noContextStreamMsg] ∧
      getCachedAnswer (askQuestionStream st model mh q cid uid true cls env).2.cache q cid
          (streamKwargs model)
        = some ⟨{ streamCacheData noContextStreamMsg model env.responseTimeMs with
                  cached := true },
                generateCacheKey q cid (streamKwargs model)⟩ ∧
      lastTurn (askQuestionStream st model mh q cid uid true cls env).2.conv cid uid
        = some ⟨q, noContextStreamMsg⟩) ∧
    (∀ ps r rs, env.retrieval = .ok (r :: rs) → env.gen = .failsAfter ps →
      (askQuestionStream st model mh q cid uid true cls env).1 = ps ++ [streamErrorMsg] ∧
      (askQuestionStream st model mh q cid uid true cls env).1.getLast?
        = some streamErrorMsg ∧
      getCachedAnswer (askQuestionStream st model mh q cid uid true cls env).2.cache q cid
          (streamKwargs model)
        = some ⟨{ streamCacheData (String.join (ps ++ [streamErrorMsg])) model
                    env.responseTimeMs with cached := true },
                generateCacheKey q cid (streamKwargs model)⟩ ∧
      lastTurn (askQuestionStream st model mh q cid uid true cls env).2.conv cid uid
        = some ⟨q, String.join (ps ++ [streamErrorMsg])⟩ ∧
      (ps = [] → String.join (ps ++ [streamErrorMsg]) = streamErrorMsg)) := by
  constructor
  · intro hret
    have hout : answerQuestionStream env = [noContextStreamMsg] := by
      rw [answerQuestionStream, hret]
    have hfull : String.join (answerQuestionStream env) = noContextStreamMsg := by
      rw [hout, join_one]
    have hfne : (String.join (answerQuestionStream env) == "") = false := by
      rw [hfull]
      decide
    rw [askQuestionStream_gen st model mh q cid uid cls env hmiss hq hrel hfne]
    refine ⟨hout, ?_, ?_⟩
    · rw [getCachedAnswer_cacheAnswer]
      rw [hfull]
    · rw [lastTurn_addTurn, hfull]
  · intro ps r rs hret hgen
    have hout : answerQuestionStream env = ps ++ [streamErrorMsg] := by
      rw [answerQuestionStream, hret, hgen]
    have hfne : (String.join (answerQuestionStream env) == "") = false := by
      rw [hout]
      exact beq_eq_false_iff_ne.mpr (join_append_one_ne_empty _ _ (by decide))
    rw [askQuestionStream_gen st model mh q cid uid cls env hmiss hq hrel hfne]
    refine ⟨hout, ?_, ?_, ?_, ?_⟩
    · rw [hout]
      exact List.getLast?_concat _
    · rw [getCachedAnswer_cacheAnswer, hout]
    · rw [lastTurn_addTurn, hout]
    · intro hps
      rw [hps]
      exact join_one _

/-- Witness for C10 at a concrete empty-retrieval environment. -/
theorem claim10_stream_failure_is_cached_witness :
    getCachedAnswer ([] : RedisStore) "Q?" "cid" (streamKwargs "m") = none ∧
    (⟨true, true, "general", 1, ""⟩ : Classification).is_question = true ∧
    (⟨true, true, "general", 1, ""⟩ : Classification).is_relevant = true ∧
    (⟨Except.ok [], .yields [], 42⟩ : StreamEnv).retrieval = .ok [] ∧
    ((askQuestionStream ⟨[], []⟩ "m" 10 "Q?" "cid" "uid" true
        ⟨true, true, "general", 1, ""⟩ ⟨Except.ok [], .yields [], 42⟩).1
      = [noContextStreamMsg] ∧
     getCachedAnswer (askQuestionStream ⟨[], []⟩ "m" 10 "Q?" "cid" "uid" true
        ⟨true, true, "general", 1, ""⟩ ⟨Except.ok [], .yields [], 42⟩).2.cache "Q?" "cid"
        (streamKwargs "m")
      = some ⟨{ streamCacheData noContextStreamMsg "m" 42 with cached := true },
              generateCacheKey "Q?" "cid" (streamKwargs "m")⟩ ∧
     lastTurn (askQuestionStream ⟨[], []⟩ "m" 10 "Q?" "cid" "uid" true
        ⟨true, true, "general", 1, ""⟩ ⟨Except.ok [], .yields [], 42⟩).2.conv "cid" "uid"
      = some ⟨"Q?", noContextStreamMsg⟩) :=
  ⟨rfl, rfl, rfl, rfl,
   (claim10_stream_failure_is_cached ⟨[], []⟩ "m" 10 "Q?" "cid" "uid"
     ⟨true, true, "general", 1, ""⟩ ⟨Except.ok [], .yields [], 42⟩ rfl rfl rfl).1 rfl⟩

/-- Witness for C7 (amended): `chunk_size = 4`, `overlap = 2`, three
paragraphs each within the chunk size; the overlap tail `"d e"` of
chunk 1 heads chunk 2. -/
theorem claim7_overlap_continuity_witness :
    0 < 2 ∧
    (∀ p ∈ splitParagraphs "a b c\n\nd e\n\nf g h", wordCount p ≤ 4) ∧
    1 + 1 < (heuristicChunkG 4 2 [] "a b c\n\nd e\n\nf g h").length ∧
    (List.IsPrefix
        (overlapTail 2 ((heuristicChunkG 4 2 [] "a b c\n\nd e\n\nf g h").getD 1 cgDflt).2.sep
          ((heuristicChunkG 4 2 [] "a b c\n\nd e\n\nf g h").getD 1 cgDflt).2.elems).data
        (((heuristicChunkG 4 2 [] "a b c\n\nd e\n\nf g h").getD 2 cgDflt).1.text.data)) :=
  ⟨by decide, by decide, by decide,
   (claim7_overlap_continuity 4 2 [] "a b c\n\nd e\n\nf g h" (by decide) (by decide) 1
     (by decide)).1⟩

end ChemBot
